import Mathlib

/-!
# IMP.bff path map: neighbor stencil and path-map header

A shallow embedding of `PathMap::get_neighbor_idx_offsets` (IMP/bff/PathMap.h) and of the
inline members of `PathMapHeader` (IMP/bff/PathMapHeader.h).

Conventions of the embedding:

* C++ `int` is `Int`; signed overflow is undefined behaviour in the source and is outside the
  model (no wrap-around is invented). The squares of the loop counters and their sums, which
  the source keeps in `double`s, are integers that a 32-bit `int` and a `double` both hold
  exactly, and are computed exactly.
* C++ `double` and `float` values are rationals (`ℚ`). The product `neighbor_radius *
  neighbor_radius` is rounded to the nearest double (`roundDouble`: binary64, round to nearest,
  ties to even), and the `int` compared with it is converted by `toDouble`. The exponent range
  is taken as unbounded; NaN and the infinities are outside the model.
* A conversion `double → int` truncates toward zero (`truncToInt`); the assignment of a `double`
  to the 32-bit `int` member of the header is `doubleToInt`.
* The returned `std::vector<int>` is a list of 32-bit slots. Four of every five slots are plain
  ints; the fifth is the `int d` whose storage was overwritten with the float
  `sqrt((float) dz2_dy2_dx2)`. That slot is kept by the radicand handed to `sqrt`.
-/

namespace IMP.bff

/-- Conversion `double → int` of C++: truncation toward zero. -/
def truncToInt (q : ℚ) : Int := if 0 ≤ q then ⌊q⌋ else ⌈q⌉

/-- Rounding of a rational to the nearest integer, a tie going to the even neighbour. -/
def roundHalfEven (x : ℚ) : Int :=
  if x - (⌊x⌋ : ℚ) < 1 / 2 then ⌊x⌋
  else if 1 / 2 < x - (⌊x⌋ : ℚ) then ⌊x⌋ + 1
  else if ⌊x⌋ % 2 = 0 then ⌊x⌋ else ⌊x⌋ + 1

/-- The double nearest to `q`, as a double operation delivers it (IEEE-754 binary64, round to
nearest, ties to even): with `2^e ≤ |q| < 2^(e+1)` the result is the multiple of `2^(e-52)`
nearest to `q`. The exponent range is unbounded: no overflow and no gradual underflow. -/
def roundDouble (q : ℚ) : ℚ :=
  let a : ℚ := |q|
  let p : Int := Int.log 2 a - 52
  let v : ℚ := (roundHalfEven (a / 2 ^ p) : ℚ) * 2 ^ p
  if q < 0 then -v else v

/-- The conversion `int → double` of C++: the nearest double, which is the integer itself
whenever its absolute value is below `2^53`, as every 32-bit `int` is. -/
def toDouble (n : Int) : ℚ := roundDouble (n : ℚ)

/-- The conversion of a `double` to a 32-bit `int`: truncation toward zero; a value outside the
range of `int` is undefined in C++ and gives `INT_MIN` on x86, which is what is modelled. -/
def doubleToInt (q : ℚ) : Int :=
  if -2 ^ 31 ≤ truncToInt q ∧ truncToInt q < 2 ^ 31 then truncToInt q else -2 ^ 31

/-- The values taken by the loop variable of `for(int v = lo; v < hi; v++)`, in order. -/
def intRange (lo hi : Int) : List Int :=
  (List.range (hi - lo).toNat).map (fun (i : Nat) => lo + Int.ofNat i)

/-- One slot of the `std::vector<int>` returned by `get_neighbor_idx_offsets`. -/
inductive Slot where
  /-- A slot written by `emplace_back` of an `int` value. -/
  | int (v : Int)
  /-- The slot `d`: the bits of the float `sqrt((float) radicand)`. -/
  | sqrtf (radicand : Int)
  deriving DecidableEq

/-- The fields of `IMP::em::DensityHeader` that the two headers read or write. -/
structure DensityHeader where
  nx : Int
  ny : Int
  nz : Int
  xorigin : ℚ
  yorigin : ℚ
  zorigin : ℚ
  spacing : ℚ
  deriving DecidableEq

/-- A point `IMP::algebra::Vector3D`, read by `v[0]`, `v[1]`, `v[2]`. -/
structure Vector3D where
  x : ℚ
  y : ℚ
  z : ℚ
  deriving DecidableEq

/-- The access `v[i]` of a `Vector3D`. -/
def Vector3D.get (v : Vector3D) (i : Fin 3) : ℚ :=
  match i with
  | 0 => v.x
  | 1 => v.y
  | 2 => v.z

/-- The data members of `PathMapHeader`. -/
structure PathMapHeader where
  grid_spacing_ : ℚ
  max_path_length_ : ℚ
  neighbor_radius_ : Int
  obstacle_threshold_ : ℚ
  density_header_ : DensityHeader
  path_origin_ : Vector3D
  deriving DecidableEq

/-- Modelled from the spec: the per-voxel record `PathMapTile` (PathMapTile.h is not among the
sources), with the attributes the data model of the spec lists for a Tile; a `pathCost` of
`none` is the initial +infinity. -/
structure PathMapTile where
  penalty : ℚ
  isObstacle : Bool
  density : ℚ
  pathCost : Option ℚ
  predecessor : Option Nat
  edgesBuilt : Bool
  edges : List (Nat × ℚ)
  deriving DecidableEq

/-- The state of a `PathMap`: the header and the densities of the `DensityMap` base class
(`get_header()`), and the members declared in PathMap.h. -/
structure PathMap where
  header : DensityHeader
  data : List ℚ
  visited : List Bool
  edge_computed : List Bool
  cost : List ℚ
  pathMapHeader_ : PathMapHeader
  tiles : List PathMapTile
  offsets_ : List Slot
  deriving DecidableEq

/-! ## PathMapHeader -/

/-- The C++ member `DensityHeader::set_xorigin`. -/
def DensityHeader.set_xorigin (d : DensityHeader) (x : ℚ) : DensityHeader :=
  { d with xorigin := x }

/-- The C++ member `DensityHeader::set_yorigin`. -/
def DensityHeader.set_yorigin (d : DensityHeader) (y : ℚ) : DensityHeader :=
  { d with yorigin := y }

/-- The C++ member `DensityHeader::set_zorigin`. -/
def DensityHeader.set_zorigin (d : DensityHeader) (z : ℚ) : DensityHeader :=
  { d with zorigin := z }

/-- The C++ member `DensityHeader::get_xorigin`. -/
def DensityHeader.get_xorigin (d : DensityHeader) : ℚ := d.xorigin

/-- The C++ member `DensityHeader::get_yorigin`. -/
def DensityHeader.get_yorigin (d : DensityHeader) : ℚ := d.yorigin

/-- The C++ member `DensityHeader::get_zorigin`. -/
def DensityHeader.get_zorigin (d : DensityHeader) : ℚ := d.zorigin

/-- The C++ member `DensityHeader::get_spacing`. -/
def DensityHeader.get_spacing (d : DensityHeader) : ℚ := d.spacing

/-- The C++ member `DensityHeader::get_nx`. -/
def DensityHeader.get_nx (d : DensityHeader) : Int := d.nx

/-- The C++ member `DensityHeader::get_ny`. -/
def DensityHeader.get_ny (d : DensityHeader) : Int := d.ny

namespace PathMapHeader

/-- The C++ member `PathMapHeader::set_path_origin`. The member `get_grid_edge_length` is only
declared in the header, so it is the parameter `get_grid_edge_length`, a function of the header
state; it is called after `path_origin_` has been assigned. -/
def set_path_origin (get_grid_edge_length : PathMapHeader → ℚ) (h : PathMapHeader)
    (v : Vector3D) : PathMapHeader :=
  let h := { h with path_origin_ := v }
  let lr := get_grid_edge_length h / 2
  let h := { h with density_header_ := h.density_header_.set_xorigin (v.get 0 - lr) }
  let h := { h with density_header_ := h.density_header_.set_yorigin (v.get 1 - lr) }
  { h with density_header_ := h.density_header_.set_zorigin (v.get 2 - lr) }

/-- The C++ member `PathMapHeader::get_path_origin`. -/
def get_path_origin (h : PathMapHeader) : Vector3D := h.path_origin_

/-- The C++ member `PathMapHeader::get_max_path_length`. -/
def get_max_path_length (h : PathMapHeader) : ℚ := h.max_path_length_

/-- The C++ member `PathMapHeader::get_simulation_grid_resolution`: it refreshes `grid_spacing_`
from the density header and returns it, so the result comes with the new state. -/
def get_simulation_grid_resolution (h : PathMapHeader) : ℚ × PathMapHeader :=
  let h := { h with grid_spacing_ := h.density_header_.get_spacing }
  (h.grid_spacing_, h)

/-- The C++ member `PathMapHeader::set_obstacle_threshold`. -/
def set_obstacle_threshold (h : PathMapHeader) (obstacle_threshold : ℚ) : PathMapHeader :=
  { h with obstacle_threshold_ := obstacle_threshold }

/-- The C++ member `PathMapHeader::get_obstacle_threshold`. -/
def get_obstacle_threshold (h : PathMapHeader) : ℚ := h.obstacle_threshold_

/-- The C++ member `PathMapHeader::set_neighbor_radius`: the `double` argument is assigned to
the 32-bit `int` member `neighbor_radius_`. The source declares a `double` result and has no
`return` statement: the call delivers no value, which is the `none` of the first component; the
second component is the header after the call. -/
def set_neighbor_radius (h : PathMapHeader) (neighbor_radius : ℚ) : Option ℚ × PathMapHeader :=
  (none, { h with neighbor_radius_ := doubleToInt neighbor_radius })

/-- The C++ member `PathMapHeader::get_neighbor_radius`. -/
def get_neighbor_radius (h : PathMapHeader) : Int := h.neighbor_radius_

/-- The C++ member `PathMapHeader::get_neighbor_box_size`: `ceil` of the `int` member. -/
def get_neighbor_box_size (h : PathMapHeader) : Int := ⌈(h.neighbor_radius_ : ℚ)⌉

/-- The C++ member `PathMapHeader::get_origin`. -/
def get_origin (h : PathMapHeader) : Vector3D :=
  { x := h.density_header_.get_xorigin
    y := h.density_header_.get_yorigin
    z := h.density_header_.get_zorigin }

/-- The C++ member `PathMapHeader::set_origin`. -/
def set_origin (h : PathMapHeader) (x y z : ℚ) : PathMapHeader :=
  let h := { h with density_header_ := h.density_header_.set_xorigin x }
  let h := { h with density_header_ := h.density_header_.set_yorigin y }
  { h with density_header_ := h.density_header_.set_zorigin z }

end PathMapHeader

/-! ## PathMap -/

namespace PathMap

/-- The C++ member `PathMap::get_path_map_header`. -/
def get_path_map_header (m : PathMap) : PathMapHeader := m.pathMapHeader_

/-- The C++ member `PathMap::get_header` (inherited from the density map). -/
def get_header (m : PathMap) : DensityHeader := m.header

/-- The C++ member `PathMap::get_neighbor_idx_offsets(double neighbor_radius)`. The three
nested `for` loops append to `offsets`; each kept voxel appends five slots. `nr2` is the double
product of the radius with itself, and the test `dz2_dy2_dx2 <= nr2` compares the `int`,
converted to `double`, with it. -/
def get_neighbor_idx_offsets (m : PathMap) (neighbor_radius : ℚ) : List Slot :=
  let neighbor_radius : ℚ :=
    if neighbor_radius < 0 then
      let pmh := m.get_path_map_header
      (pmh.get_neighbor_radius : ℚ)
    else neighbor_radius
  let nn : Int := ⌈neighbor_radius⌉
  let nr2 : ℚ := roundDouble (neighbor_radius * neighbor_radius)
  let header := m.get_header
  let nx : Int := header.get_nx
  let ny : Int := header.get_ny
  let nx_ny : Int := nx * ny
  (intRange (-nn) nn).foldl (fun offsets z =>
    let dz2 : ℚ := ((z * z : Int) : ℚ)
    let oz : Int := z * nx_ny
    (intRange (-nn) nn).foldl (fun offsets y =>
      let oy : Int := y * nx
      let dz2_dy2 : ℚ := dz2 + ((y * y : Int) : ℚ)
      (intRange (-nn) nn).foldl (fun offsets x =>
        let ox : Int := x
        let dz2_dy2_dx2 : Int := truncToInt (dz2_dy2 + ((x * x : Int) : ℚ))
        if toDouble dz2_dy2_dx2 ≤ nr2 then
          let tile_offset : Int := oz + oy + ox
          offsets ++ [Slot.int z, Slot.int y, Slot.int x, Slot.int tile_offset,
            Slot.sqrtf dz2_dy2_dx2]
        else offsets) offsets) offsets) []

/-- The call `get_neighbor_idx_offsets()` with the default argument `neighbor_radius = -1`. -/
def get_neighbor_idx_offsets_default (m : PathMap) : List Slot :=
  m.get_neighbor_idx_offsets (-1)

end PathMap

/-! ## The stencil as a list of entries -/

/-- One entry `(dz, dy, dx, flatOffset, weight)` of the stencil; the weight is the float
`sqrt((float) radicand)` and is kept by its radicand. -/
structure StencilEntry where
  dz : Int
  dy : Int
  dx : Int
  flatOffset : Int
  radicand : Int
  deriving DecidableEq

/-- Reading the returned vector back five slots at a time, in the order the source writes them. -/
def entries : List Slot → List StencilEntry
  | Slot.int z :: Slot.int y :: Slot.int x :: Slot.int o :: Slot.sqrtf d :: rest =>
      { dz := z, dy := y, dx := x, flatOffset := o, radicand := d } :: entries rest
  | _ => []

/-- The stencil returned by `get_neighbor_idx_offsets(neighbor_radius)`, entry by entry. -/
def PathMap.stencil (m : PathMap) (neighbor_radius : ℚ) : List StencilEntry :=
  entries (m.get_neighbor_idx_offsets neighbor_radius)

/-- The displacement `(dz, dy, dx)` of an entry. -/
def StencilEntry.displacement (e : StencilEntry) : Int × Int × Int := (e.dz, e.dy, e.dx)

/-- The integer squared length `dz² + dy² + dx²` of the displacement of an entry. -/
def StencilEntry.sqDist (e : StencilEntry) : Int := e.dz * e.dz + e.dy * e.dy + e.dx * e.dx

/-- The weight of an entry as a real number: the square root of the stored radicand (the value
the float `sqrt((float) radicand)` stands for, before rounding to binary32). -/
noncomputable def StencilEntry.weight (e : StencilEntry) : ℝ := Real.sqrt (e.radicand : ℝ)

/-- The radius the loops run with: the header's radius when the argument is negative. -/
def PathMap.effectiveRadius (m : PathMap) (neighbor_radius : ℚ) : ℚ :=
  if neighbor_radius < 0 then (m.get_path_map_header.get_neighbor_radius : ℚ)
  else neighbor_radius

/-- The five slots appended for a kept voxel, in the order of the `emplace_back` calls. -/
def pack (e : StencilEntry) : List Slot :=
  [Slot.int e.dz, Slot.int e.dy, Slot.int e.dx, Slot.int e.flatOffset, Slot.sqrtf e.radicand]

/-- The entry written for the voxel `(z, y, x)` on a grid with dimensions `nx`, `ny`:
`oz + oy + ox` with `oz = z * (nx * ny)`, `oy = y * nx`, `ox = x`. -/
def mkEntry (nx ny z y x : Int) : StencilEntry :=
  { dz := z, dy := y, dx := x, flatOffset := z * (nx * ny) + y * nx + x,
    radicand := z * z + y * y + x * x }

/-- What one pass of the innermost loop body contributes for the radius `R`. -/
def keptAt (R : ℚ) (nx ny z y x : Int) : List StencilEntry :=
  if toDouble (z * z + y * y + x * x) ≤ roundDouble (R * R) then [mkEntry nx ny z y x] else []

/-- The entries of the three nested loops over `[-⌈R⌉, ⌈R⌉)`, as nested `flatMap`s. -/
def boxEntries (R : ℚ) (nx ny : Int) : List StencilEntry :=
  (intRange (-⌈R⌉) ⌈R⌉).flatMap fun z =>
    (intRange (-⌈R⌉) ⌈R⌉).flatMap fun y =>
      (intRange (-⌈R⌉) ⌈R⌉).flatMap fun x => keptAt R nx ny z y x

/-- The reference stencil in the words of the spec: with `n = ceil(r)`, enumerate all integer
`(z, y, x)` of `[-n, n)³` (z outermost, x innermost, ascending) and keep those whose squared
distance is at most `r²`. -/
def specStencil (r : ℚ) : List (Int × Int × Int) :=
  let n : Int := ⌈r⌉
  let box : List (Int × Int × Int) :=
    (intRange (-n) n).flatMap fun z =>
      (intRange (-n) n).flatMap fun y =>
        (intRange (-n) n).map fun x => (z, y, x)
  box.filter fun t => decide (((t.1 ^ 2 + t.2.1 ^ 2 + t.2.2 ^ 2 : Int) : ℚ) ≤ r ^ 2)

/-- The integer triples `(z, y, x)` of the box `[-n, n)³`, `z` outermost and `x` innermost, each
coordinate ascending. -/
def boxTriples (n : Int) : List (Int × Int × Int) :=
  (intRange (-n) n).flatMap fun z =>
    (intRange (-n) n).flatMap fun y =>
      (intRange (-n) n).map fun x => (z, y, x)

/-- The reference stencil with the comparison of the double arithmetic: the triples of the box
`[-n, n)³`, `n = ceil(r)`, whose squared distance, as a double, is at most the double product
`r * r`. -/
def keptDisplacements (r : ℚ) : List (Int × Int × Int) :=
  (boxTriples ⌈r⌉).filter fun t =>
    decide (toDouble (t.1 ^ 2 + t.2.1 ^ 2 + t.2.2 ^ 2) ≤ roundDouble (r * r))

/-- The lexicographic order of displacement triples, `z` most significant. -/
def lexLt (a b : Int × Int × Int) : Prop :=
  a.1 < b.1 ∨ (a.1 = b.1 ∧ (a.2.1 < b.2.1 ∨ (a.2.1 = b.2.1 ∧ a.2.2 < b.2.2)))

/-- The map after a write to the header through `get_path_map_header_writable()`. -/
def PathMap.update_path_map_header (m : PathMap) (f : PathMapHeader → PathMapHeader) :
    PathMap :=
  { m with pathMapHeader_ := f m.pathMapHeader_ }

/-- The map after `get_path_map_header_writable()->set_neighbor_radius(neighbor_radius)`. -/
def PathMap.configure_neighbor_radius (m : PathMap) (neighbor_radius : ℚ) : PathMap :=
  m.update_path_map_header fun h => (h.set_neighbor_radius neighbor_radius).2

/-- The header `h` with other values in its origin fields: `path_origin_` and the three origin
fields of `density_header_`. -/
def PathMapHeader.withOrigins (h : PathMapHeader) (p : Vector3D) (x y z : ℚ) : PathMapHeader :=
  { h with path_origin_ := p,
           density_header_ := { h.density_header_ with xorigin := x, yorigin := y, zorigin := z } }

/-- A grid edge length that reads only `max_path_length_`: twice the maximum path length. -/
def exampleEdgeLength (h : PathMapHeader) : ℚ := 2 * h.max_path_length_

/-- A density header of a 5×5×5 grid with its corner at the origin. -/
def exampleDensityHeader : DensityHeader :=
  { nx := 5, ny := 5, nz := 5, xorigin := 0, yorigin := 0, zorigin := 0, spacing := 1 }

/-- A path-map header with the constructor's default neighbor radius 2. -/
def exampleHeader : PathMapHeader :=
  { grid_spacing_ := 1, max_path_length_ := 10, neighbor_radius_ := 2,
    obstacle_threshold_ := 0, density_header_ := exampleDensityHeader,
    path_origin_ := { x := 0, y := 0, z := 0 } }

/-- A path map over the 5×5×5 grid, before any search. -/
def exampleMap : PathMap :=
  { header := exampleDensityHeader, data := [], visited := [], edge_computed := [],
    cost := [], pathMapHeader_ := exampleHeader, tiles := [], offsets_ := [] }

/-- A path origin (labeling site) for the example header. -/
def examplePathOrigin : Vector3D := { x := 1, y := 2, z := 3 }

/-- The entry of the unit step `(-1, 0, 0)` on the 5×5×5 grid. -/
def exampleEntry : StencilEntry :=
  { dz := -1, dy := 0, dx := 0, flatOffset := -25, radicand := 1 }

/-- The double nearest to the square root of 11, `0x1.a887293fd6f34p+1`; its exact square is
below 11 and the double product of it with itself is 11. -/
def sqrtElevenDouble : ℚ := 1867093771246541 / 562949953421312

/-- The entry of the displacement `(-3, -1, -1)`, of squared distance 11, on the 5×5×5 grid. -/
def sqrtElevenEntry : StencilEntry :=
  { dz := -3, dy := -1, dx := -1, flatOffset := -81, radicand := 11 }

/-- A path map over a 3×3×3 grid whose header holds the default neighbor radius 2. -/
def smallMap : PathMap :=
  { header := { nx := 3, ny := 3, nz := 3, xorigin := 0, yorigin := 0, zorigin := 0,
                spacing := 1 },
    data := [], visited := [], edge_computed := [], cost := [],
    pathMapHeader_ := exampleHeader, tiles := [], offsets_ := [] }

/-- The entry of the displacement `(0, -1, 1)` on the 3×3×3 grid. -/
def smallMapEntryA : StencilEntry :=
  { dz := 0, dy := -1, dx := 1, flatOffset := -2, radicand := 2 }

/-- The entry of the displacement `(0, 0, -2)` on the 3×3×3 grid. -/
def smallMapEntryB : StencilEntry :=
  { dz := 0, dy := 0, dx := -2, flatOffset := -2, radicand := 4 }

/-- The entry of the zero displacement, whose weight is `sqrt(0)`. -/
def zeroEntry : StencilEntry :=
  { dz := 0, dy := 0, dx := 0, flatOffset := 0, radicand := 0 }

/-- Modelled from the spec: the linearization `index(x,y,z) = z*nx*ny + y*nx + x` of a voxel of
a grid with dimensions `nx`, `ny` (the voxel indexing of the density map base class, which is
not among the sources). -/
def voxelIndex (nx ny : Int) (x y z : Int) : Int := z * nx * ny + y * nx + x

/-- Whether the voxel `(x, y, z)` lies inside the grid of the header. -/
def DensityHeader.inGrid (d : DensityHeader) (x y z : Int) : Prop :=
  0 ≤ x ∧ x < d.nx ∧ 0 ≤ y ∧ y < d.ny ∧ 0 ≤ z ∧ z < d.nz

instance (d : DensityHeader) (x y z : Int) : Decidable (d.inGrid x y z) := by
  unfold DensityHeader.inGrid
  infer_instance

/-- The components of an entry other than the flat offset: the displacement and the weight (by
its radicand). -/
def StencilEntry.geometry (e : StencilEntry) : Int × Int × Int × Int :=
  (e.dz, e.dy, e.dx, e.radicand)

/-- A second path map with the same `nx`, `ny` as `exampleMap` and everything else different:
another `nz`, origin and spacing, densities loaded, and search state left by a search. -/
def exampleMapAfterSearch : PathMap :=
  { header := { nx := 5, ny := 5, nz := 9, xorigin := -3, yorigin := 7 / 2, zorigin := 1,
                spacing := 2 },
    data := [0, 1, 0, 1], visited := [true, false], edge_computed := [true],
    cost := [0, 3 / 2],
    pathMapHeader_ := exampleHeader,
    tiles := [{ penalty := 1, isObstacle := true, density := 1, pathCost := some 0,
                predecessor := none, edgesBuilt := true, edges := [(1, 1)] }],
    offsets_ := [Slot.int 0] }

/-! ## Lemmas on the rounding of doubles -/

theorem roundHalfEven_intCast (n : Int) : roundHalfEven (n : ℚ) = n := by
  unfold roundHalfEven
  simp

theorem floor_le_roundHalfEven (x : ℚ) : ⌊x⌋ ≤ roundHalfEven x := by
  unfold roundHalfEven
  split_ifs <;> omega

theorem roundHalfEven_le_floor_add_one (x : ℚ) : roundHalfEven x ≤ ⌊x⌋ + 1 := by
  unfold roundHalfEven
  split_ifs <;> omega

theorem roundHalfEven_mono {x y : ℚ} (h : x ≤ y) : roundHalfEven x ≤ roundHalfEven y := by
  have hf : ⌊x⌋ ≤ ⌊y⌋ := Int.floor_mono h
  rcases lt_or_eq_of_le hf with hlt | heq
  · calc roundHalfEven x ≤ ⌊x⌋ + 1 := roundHalfEven_le_floor_add_one x
      _ ≤ ⌊y⌋ := hlt
      _ ≤ roundHalfEven y := floor_le_roundHalfEven y
  · unfold roundHalfEven
    rw [heq]
    have hxy : x - (⌊y⌋ : ℚ) ≤ y - (⌊y⌋ : ℚ) := by linarith
    split_ifs <;> first | omega | (exfalso; linarith)

theorem roundHalfEven_eq_of_near (x : ℚ) (z : Int) (h1 : (z : ℚ) - 1 / 2 < x)
    (h2 : x < (z : ℚ) + 1 / 2) : roundHalfEven x = z := by
  by_cases hz : (z : ℚ) ≤ x
  · have hf : ⌊x⌋ = z := by
      rw [Int.floor_eq_iff]
      constructor
      · exact hz
      · linarith
    unfold roundHalfEven
    rw [hf, if_pos (by linarith)]
  · have hz' : x < (z : ℚ) := not_le.mp hz
    have hf : ⌊x⌋ = z - 1 := by
      rw [Int.floor_eq_iff]
      push_cast
      constructor <;> linarith
    unfold roundHalfEven
    rw [hf]
    push_cast
    rw [if_neg (by linarith), if_pos (by linarith)]
    ring

theorem roundDouble_of_pos (q : ℚ) (hq : 0 < q) :
    roundDouble q
      = (roundHalfEven (q / 2 ^ (Int.log 2 q - 52)) : ℚ) * 2 ^ (Int.log 2 q - 52) := by
  unfold roundDouble
  simp only [abs_of_pos hq]
  rw [if_neg (not_lt.mpr hq.le)]

theorem roundDouble_zero : roundDouble 0 = 0 := by
  unfold roundDouble
  simp [roundHalfEven]

theorem two_zpow_split (e : Int) : (2 : ℚ) ^ e = 2 ^ (52 : Int) * 2 ^ (e - 52) := by
  rw [← zpow_add₀ (by norm_num : (2 : ℚ) ≠ 0)]
  congr 1
  ring

theorem two_zpow_succ_split (e : Int) : (2 : ℚ) ^ (e + 1) = 2 ^ (53 : Int) * 2 ^ (e - 52) := by
  rw [← zpow_add₀ (by norm_num : (2 : ℚ) ≠ 0)]
  congr 1
  ring

theorem two_zpow_pos (e : Int) : (0 : ℚ) < 2 ^ e := zpow_pos (by norm_num) e

theorem log_two_spec (q : ℚ) (hq : 0 < q) :
    (2 : ℚ) ^ Int.log 2 q ≤ q ∧ q < 2 ^ (Int.log 2 q + 1) := by
  have h1 := Int.zpow_log_le_self (b := 2) (by norm_num) hq
  have h2 := Int.lt_zpow_succ_log_self (b := 2) (by norm_num) q
  exact ⟨by exact_mod_cast h1, by exact_mod_cast h2⟩

theorem roundDouble_bounds (q : ℚ) (hq : 0 < q) :
    (2 : ℚ) ^ Int.log 2 q ≤ roundDouble q ∧ roundDouble q ≤ 2 ^ (Int.log 2 q + 1) := by
  obtain ⟨h1, h2⟩ := log_two_spec q hq
  have hp := two_zpow_pos (Int.log 2 q - 52)
  rw [roundDouble_of_pos q hq, two_zpow_split, two_zpow_succ_split]
  rw [two_zpow_split] at h1
  rw [two_zpow_succ_split] at h2
  have hlo : ((2 ^ 52 : Int) : ℚ) ≤ q / 2 ^ (Int.log 2 q - 52) := by
    rw [le_div_iff₀ hp]
    push_cast
    exact_mod_cast h1
  have hhi : q / 2 ^ (Int.log 2 q - 52) ≤ ((2 ^ 53 : Int) : ℚ) := by
    rw [div_le_iff₀ hp]
    push_cast
    exact_mod_cast h2.le
  have rlo := roundHalfEven_mono hlo
  have rhi := roundHalfEven_mono hhi
  rw [roundHalfEven_intCast] at rlo rhi
  have rlo' : ((2 ^ 52 : Int) : ℚ) ≤ (roundHalfEven (q / 2 ^ (Int.log 2 q - 52)) : ℚ) := by
    exact_mod_cast rlo
  have rhi' : (roundHalfEven (q / 2 ^ (Int.log 2 q - 52)) : ℚ) ≤ ((2 ^ 53 : Int) : ℚ) := by
    exact_mod_cast rhi
  constructor
  · have := mul_le_mul_of_nonneg_right rlo' hp.le
    exact_mod_cast this
  · have := mul_le_mul_of_nonneg_right rhi' hp.le
    exact_mod_cast this

theorem roundDouble_nonneg (q : ℚ) (hq : 0 ≤ q) : 0 ≤ roundDouble q := by
  rcases lt_or_eq_of_le hq with h | h
  · exact le_trans (two_zpow_pos _).le (roundDouble_bounds q h).1
  · rw [← h, roundDouble_zero]

theorem roundDouble_mono {a b : ℚ} (ha : 0 ≤ a) (hab : a ≤ b) :
    roundDouble a ≤ roundDouble b := by
  rcases lt_or_eq_of_le ha with hpos | h0
  · have hb : 0 < b := lt_of_lt_of_le hpos hab
    have hlog : Int.log 2 a ≤ Int.log 2 b := Int.log_mono_right hpos hab
    rcases lt_or_eq_of_le hlog with hlt | heq
    · calc roundDouble a ≤ 2 ^ (Int.log 2 a + 1) := (roundDouble_bounds a hpos).2
        _ ≤ 2 ^ Int.log 2 b := zpow_le_zpow_right₀ (by norm_num) (by omega)
        _ ≤ roundDouble b := (roundDouble_bounds b hb).1
    · rw [roundDouble_of_pos a hpos, roundDouble_of_pos b hb, heq]
      have hp := two_zpow_pos (Int.log 2 b - 52)
      apply mul_le_mul_of_nonneg_right _ hp.le
      have : a / 2 ^ (Int.log 2 b - 52) ≤ b / 2 ^ (Int.log 2 b - 52) :=
        div_le_div_of_nonneg_right hab hp.le
      exact_mod_cast roundHalfEven_mono this
  · rw [← h0, roundDouble_zero]
    exact roundDouble_nonneg b (le_trans ha hab)

theorem log_two_eq (x : ℚ) (e : Int) (h1 : (2 : ℚ) ^ e ≤ x) (h2 : x < 2 ^ (e + 1)) :
    Int.log 2 x = e := by
  have hx : 0 < x := lt_of_lt_of_le (two_zpow_pos e) h1
  have a1 : e ≤ Int.log 2 x := (Int.zpow_le_iff_le_log (b := 2) (by norm_num) hx).mp
    (by exact_mod_cast h1)
  have a2 : Int.log 2 x < e + 1 := (Int.lt_zpow_iff_log_lt (b := 2) (by norm_num) hx).mp
    (by exact_mod_cast h2)
  omega

theorem roundDouble_eq_of_binade (x : ℚ) (e : Int) (h1 : (2 : ℚ) ^ e ≤ x)
    (h2 : x < 2 ^ (e + 1)) :
    roundDouble x = (roundHalfEven (x / 2 ^ (e - 52)) : ℚ) * 2 ^ (e - 52) := by
  have hx : 0 < x := lt_of_lt_of_le (two_zpow_pos e) h1
  rw [roundDouble_of_pos x hx, log_two_eq x e h1 h2]

theorem roundDouble_intCast (n : Int) (h0 : 0 ≤ n) (h : n < 2 ^ 53) :
    roundDouble (n : ℚ) = n := by
  rcases lt_or_eq_of_le h0 with hpos | hz
  · have hq : (0 : ℚ) < (n : ℚ) := by exact_mod_cast hpos
    have hlo : 0 ≤ Int.log 2 (n : ℚ) := by
      apply (Int.zpow_le_iff_le_log (b := 2) (by norm_num) hq).mp
      have : (1 : ℚ) ≤ (n : ℚ) := by exact_mod_cast hpos
      simpa using this
    have hhi : Int.log 2 (n : ℚ) < 53 := by
      apply (Int.lt_zpow_iff_log_lt (b := 2) (by norm_num) hq).mp
      have h' : (n : ℚ) < ((2 ^ 53 : Int) : ℚ) := by exact_mod_cast h
      norm_num at h' ⊢
      exact h'
    obtain ⟨k, hk⟩ : ∃ k : Nat, Int.log 2 (n : ℚ) - 52 = -(k : Int) :=
      ⟨(52 - Int.log 2 (n : ℚ)).toNat, by omega⟩
    rw [roundDouble_of_pos _ hq, hk, zpow_neg, zpow_natCast]
    have hs : (n : ℚ) / ((2 : ℚ) ^ k)⁻¹ = ((n * 2 ^ k : Int) : ℚ) := by
      push_cast
      rw [div_inv_eq_mul]
    rw [hs, roundHalfEven_intCast]
    push_cast
    have h2 : (2 : ℚ) ^ k ≠ 0 := pow_ne_zero _ (by norm_num)
    field_simp
  · rw [← hz]
    simpa using roundDouble_zero

theorem toDouble_of_small (n : Int) (h0 : 0 ≤ n) (h : n < 2 ^ 53) : toDouble n = n :=
  roundDouble_intCast n h0 h

theorem toDouble_mono {a b : Int} (ha : 0 ≤ a) (hab : a ≤ b) : toDouble a ≤ toDouble b := by
  unfold toDouble
  apply roundDouble_mono
  · exact_mod_cast ha
  · exact_mod_cast hab

theorem le_of_toDouble_le (d n : Int) (hn : 0 ≤ n) (hn' : n + 1 < 2 ^ 53)
    (h : toDouble d ≤ (n : ℚ)) : d ≤ n := by
  by_contra hc
  have h1 : n + 1 ≤ d := by omega
  have h2 := toDouble_mono (by omega : 0 ≤ n + 1) h1
  rw [toDouble_of_small (n + 1) (by omega) hn'] at h2
  have h3 : ((n + 1 : Int) : ℚ) ≤ (n : ℚ) := le_trans h2 h
  have h4 : n + 1 ≤ n := by exact_mod_cast h3
  omega

theorem roundDouble_sqrtElevenDouble_sq :
    roundDouble (sqrtElevenDouble * sqrtElevenDouble) = 11 := by
  rw [roundDouble_eq_of_binade _ 3 (by norm_num [sqrtElevenDouble])
    (by norm_num [sqrtElevenDouble])]
  rw [roundHalfEven_eq_of_near _ 6192449487634432 (by norm_num [sqrtElevenDouble])
    (by norm_num [sqrtElevenDouble])]
  norm_num

theorem ceil_sqrtElevenDouble : ⌈sqrtElevenDouble⌉ = 4 := by
  rw [Int.ceil_eq_iff]
  norm_num [sqrtElevenDouble]

theorem toDouble_le_roundDouble_of_le (d : Int) (q : ℚ) (hd : 0 ≤ d) (h : (d : ℚ) ≤ q) :
    toDouble d ≤ roundDouble q := by
  unfold toDouble
  exact roundDouble_mono (by exact_mod_cast hd) h

theorem roundDouble_one_mul_one : roundDouble ((1 : ℚ) * 1) = 1 := by
  have h := roundDouble_intCast 1 (by norm_num) (by norm_num)
  simpa using h

theorem roundDouble_int_sq (n : Int) (hn : n * n < 2 ^ 53) :
    roundDouble ((n : ℚ) * (n : ℚ)) = ((n * n : Int) : ℚ) := by
  have h := roundDouble_intCast (n * n) (mul_self_nonneg n) hn
  rw [← h]
  push_cast
  rfl

/-! ## Lemmas on the embedding -/

theorem truncToInt_intCast (n : Int) : truncToInt (n : ℚ) = n := by
  unfold truncToInt
  split <;> simp

theorem mem_intRange (lo hi v : Int) : v ∈ intRange lo hi ↔ lo ≤ v ∧ v < hi := by
  unfold intRange
  simp only [List.mem_map, List.mem_range, Int.ofNat_eq_coe]
  constructor
  · rintro ⟨i, hi1, rfl⟩
    omega
  · rintro ⟨h1, h2⟩
    refine ⟨(v - lo).toNat, ?_, ?_⟩
    · omega
    · omega

theorem foldl_append_flatMap {α β : Type} (f : α → List β) (l : List α) (init : List β) :
    l.foldl (fun acc a => acc ++ f a) init = init ++ l.flatMap f := by
  induction l generalizing init with
  | nil => simp
  | cons a l ih => simp [List.foldl_cons, ih, List.flatMap_cons]

theorem entries_pack_append (e : StencilEntry) (rest : List Slot) :
    entries (pack e ++ rest) = e :: entries rest := by
  simp [pack, entries]

theorem entries_flatMap_pack (l : List StencilEntry) : entries (l.flatMap pack) = l := by
  induction l with
  | nil => simp [entries]
  | cons e l ih => rw [List.flatMap_cons, entries_pack_append, ih]

theorem truncToInt_sq_sum (z y x : Int) :
    truncToInt (((z * z : Int) : ℚ) + ((y * y : Int) : ℚ) + ((x * x : Int) : ℚ))
      = z * z + y * y + x * x := by
  rw [← Int.cast_add, ← Int.cast_add, truncToInt_intCast]

theorem get_neighbor_idx_offsets_eq (m : PathMap) (r : ℚ) :
    m.get_neighbor_idx_offsets r
      = (boxEntries (m.effectiveRadius r) m.header.nx m.header.ny).flatMap pack := by
  have step : ∀ (R : ℚ) (nx ny z y x : Int) (offsets : List Slot),
      (if toDouble (truncToInt (((z * z : Int) : ℚ) + ((y * y : Int) : ℚ)
              + ((x * x : Int) : ℚ))) ≤ roundDouble (R * R) then
          offsets ++ [Slot.int z, Slot.int y, Slot.int x, Slot.int (z * (nx * ny) + y * nx + x),
            Slot.sqrtf (truncToInt (((z * z : Int) : ℚ) + ((y * y : Int) : ℚ)
              + ((x * x : Int) : ℚ)))]
        else offsets)
      = offsets ++ (keptAt R nx ny z y x).flatMap pack := by
    intro R nx ny z y x offsets
    rw [truncToInt_sq_sum]
    unfold keptAt
    split <;> simp [pack, mkEntry]
  unfold PathMap.get_neighbor_idx_offsets boxEntries PathMap.effectiveRadius
  simp only [step, foldl_append_flatMap, List.flatMap_assoc, List.nil_append,
    PathMap.get_header, DensityHeader.get_nx, DensityHeader.get_ny]

theorem stencil_eq_boxEntries (m : PathMap) (r : ℚ) :
    m.stencil r = boxEntries (m.effectiveRadius r) m.header.nx m.header.ny := by
  rw [PathMap.stencil, get_neighbor_idx_offsets_eq, entries_flatMap_pack]

theorem mem_keptAt (R : ℚ) (nx ny z y x : Int) (e : StencilEntry) :
    e ∈ keptAt R nx ny z y x
      ↔ toDouble (z * z + y * y + x * x) ≤ roundDouble (R * R) ∧ e = mkEntry nx ny z y x := by
  unfold keptAt
  by_cases h : toDouble (z * z + y * y + x * x) ≤ roundDouble (R * R)
  · simp only [h, if_true, List.mem_singleton, true_and]
  · simp only [h, if_false, List.not_mem_nil, false_and]

theorem mem_boxEntries (R : ℚ) (nx ny : Int) (e : StencilEntry) :
    e ∈ boxEntries R nx ny ↔
      (-⌈R⌉ ≤ e.dz ∧ e.dz < ⌈R⌉) ∧ (-⌈R⌉ ≤ e.dy ∧ e.dy < ⌈R⌉) ∧ (-⌈R⌉ ≤ e.dx ∧ e.dx < ⌈R⌉)
        ∧ toDouble e.sqDist ≤ roundDouble (R * R) ∧ e = mkEntry nx ny e.dz e.dy e.dx := by
  unfold boxEntries
  simp only [List.mem_flatMap, mem_intRange, mem_keptAt]
  constructor
  · rintro ⟨z, hz, y, hy, x, hx, hd, rfl⟩
    exact ⟨hz, hy, hx, hd, rfl⟩
  · rintro ⟨hz, hy, hx, hd, he⟩
    exact ⟨e.dz, hz, e.dy, hy, e.dx, hx, hd, he⟩

theorem mem_stencil_iff (m : PathMap) (r : ℚ) (e : StencilEntry) :
    e ∈ m.stencil r ↔
      (-⌈m.effectiveRadius r⌉ ≤ e.dz ∧ e.dz < ⌈m.effectiveRadius r⌉)
        ∧ (-⌈m.effectiveRadius r⌉ ≤ e.dy ∧ e.dy < ⌈m.effectiveRadius r⌉)
        ∧ (-⌈m.effectiveRadius r⌉ ≤ e.dx ∧ e.dx < ⌈m.effectiveRadius r⌉)
        ∧ toDouble e.sqDist ≤ roundDouble (m.effectiveRadius r * m.effectiveRadius r)
        ∧ e = mkEntry m.header.nx m.header.ny e.dz e.dy e.dx := by
  rw [stencil_eq_boxEntries, mem_boxEntries]

theorem effectiveRadius_of_nonneg (m : PathMap) (r : ℚ) (hr : 0 ≤ r) :
    m.effectiveRadius r = r := by
  simp [PathMap.effectiveRadius, not_lt.mpr hr]

theorem radicand_eq_sqDist_of_mem (m : PathMap) (r : ℚ) (e : StencilEntry)
    (he : e ∈ m.stencil r) : e.radicand = e.sqDist := by
  have h := ((mem_stencil_iff m r e).mp he).2.2.2.2
  rw [h]
  rfl

theorem sqDist_nonneg (e : StencilEntry) : 0 ≤ e.sqDist := by
  unfold StencilEntry.sqDist
  nlinarith [mul_self_nonneg e.dz, mul_self_nonneg e.dy, mul_self_nonneg e.dx]

theorem ceil_one_rat : ⌈(1 : ℚ)⌉ = 1 := Int.ceil_one

theorem ceil_two_rat : ⌈(2 : ℚ)⌉ = 2 := by
  rw [Int.ceil_eq_iff]; norm_num

theorem ceil_nine_fifths : ⌈(9 / 5 : ℚ)⌉ = 2 := by
  rw [Int.ceil_eq_iff]; norm_num

theorem exampleEntry_mem : exampleEntry ∈ exampleMap.stencil 1 := by
  rw [mem_stencil_iff, effectiveRadius_of_nonneg _ _ (by norm_num), ceil_one_rat]
  simp [StencilEntry.sqDist, mkEntry, exampleMap, exampleDensityHeader, exampleEntry]
  exact toDouble_le_roundDouble_of_le _ _ (by norm_num) (by norm_num)

theorem zeroEntry_mem_of_pos (m : PathMap) (r : ℚ) (hr : 0 < m.effectiveRadius r) :
    zeroEntry ∈ m.stencil r := by
  have hc : 0 < ⌈m.effectiveRadius r⌉ := Int.ceil_pos.mpr hr
  rw [mem_stencil_iff]
  simp only [zeroEntry, StencilEntry.sqDist, mkEntry]
  refine ⟨⟨by omega, hc⟩, ⟨by omega, hc⟩, ⟨by omega, hc⟩, ?_, by simp⟩
  exact toDouble_le_roundDouble_of_le _ _ (by norm_num)
    (by simpa using mul_self_nonneg (m.effectiveRadius r))

theorem weight_pos_of_sqDist_pos (m : PathMap) (r : ℚ) (e : StencilEntry)
    (he : e ∈ m.stencil r) (hd : e.displacement ≠ (0, 0, 0)) : 0 < e.weight := by
  unfold StencilEntry.weight
  rw [Real.sqrt_pos, radicand_eq_sqDist_of_mem m r e he]
  have h0 : 0 < e.sqDist := by
    rcases lt_or_eq_of_le (sqDist_nonneg e) with h | h
    · exact h
    · exfalso
      apply hd
      unfold StencilEntry.sqDist at h
      have hz : e.dz = 0 := by
        nlinarith [mul_self_nonneg e.dz, mul_self_nonneg e.dy, mul_self_nonneg e.dx]
      have hy : e.dy = 0 := by
        nlinarith [mul_self_nonneg e.dz, mul_self_nonneg e.dy, mul_self_nonneg e.dx]
      have hx : e.dx = 0 := by
        nlinarith [mul_self_nonneg e.dz, mul_self_nonneg e.dy, mul_self_nonneg e.dx]
      simp [StencilEntry.displacement, hz, hy, hx]
  exact_mod_cast h0

/-- C1: every entry of the stencil returned by `get_neighbor_idx_offsets(r)`, on every grid,
stores as its weight the square root of the squared length of its own displacement: the radicand
handed to `sqrt` is `dz² + dy² + dx²`, the weight is non-negative and its square is
`dz² + dy² + dx²`. -/
theorem stencil_weight_is_euclidean_norm (m : PathMap) (r : ℚ) (e : StencilEntry)
    (he : e ∈ m.stencil r) :
    e.radicand = e.dz ^ 2 + e.dy ^ 2 + e.dx ^ 2 ∧ 0 ≤ e.weight
      ∧ e.weight ^ 2 = (e.dz : ℝ) ^ 2 + (e.dy : ℝ) ^ 2 + (e.dx : ℝ) ^ 2 := by
  have hrad : e.radicand = e.dz ^ 2 + e.dy ^ 2 + e.dx ^ 2 := by
    rw [radicand_eq_sqDist_of_mem m r e he, StencilEntry.sqDist]
    ring
  have hnn : (0 : ℝ) ≤ (e.radicand : ℝ) := by
    rw [radicand_eq_sqDist_of_mem m r e he]
    exact_mod_cast sqDist_nonneg e
  refine ⟨hrad, Real.sqrt_nonneg _, ?_⟩
  unfold StencilEntry.weight
  rw [Real.sq_sqrt hnn, hrad]
  push_cast
  ring

/-- Witness of C1: the entry `(-1, 0, 0)` of the radius-1 stencil of the 5×5×5 map. -/
theorem stencil_weight_is_euclidean_norm_witness :
    exampleEntry ∈ exampleMap.stencil 1
      ∧ (exampleEntry.radicand = exampleEntry.dz ^ 2 + exampleEntry.dy ^ 2 + exampleEntry.dx ^ 2
        ∧ 0 ≤ exampleEntry.weight
        ∧ exampleEntry.weight ^ 2
            = (exampleEntry.dz : ℝ) ^ 2 + (exampleEntry.dy : ℝ) ^ 2 + (exampleEntry.dx : ℝ) ^ 2) :=
  ⟨exampleEntry_mem, stencil_weight_is_euclidean_norm exampleMap 1 exampleEntry exampleEntry_mem⟩

/-- C2 as stated fails: the radius-1 stencil of the 5×5×5 map has the entry with
`dz = dy = dx = 0`, and its weight is 0. -/
theorem stencil_contains_zero_displacement :
    zeroEntry ∈ exampleMap.stencil 1
      ∧ zeroEntry.dz = 0 ∧ zeroEntry.dy = 0 ∧ zeroEntry.dx = 0 ∧ zeroEntry.weight = 0 := by
  refine ⟨zeroEntry_mem_of_pos exampleMap 1 ?_, rfl, rfl, rfl, ?_⟩
  · rw [effectiveRadius_of_nonneg _ _ (by norm_num)]
    norm_num
  · simp [StencilEntry.weight, zeroEntry]

/-- C2, amended: every stencil entry other than the zero displacement has a strictly positive
weight, and the zero displacement itself is an entry whenever the radius the loops run with is
strictly positive. -/
theorem stencil_weight_pos_off_zero (m : PathMap) (r : ℚ) :
    (∀ e ∈ m.stencil r, e.displacement ≠ (0, 0, 0) → 0 < e.weight)
      ∧ (0 < m.effectiveRadius r → zeroEntry ∈ m.stencil r) :=
  ⟨fun e he hd => weight_pos_of_sqDist_pos m r e he hd, zeroEntry_mem_of_pos m r⟩

/-- Witness of the amended C2: in the radius-1 stencil of the 5×5×5 map the entry `(-1, 0, 0)`
has a positive weight, and the zero displacement is an entry. -/
theorem stencil_weight_pos_off_zero_witness :
    (0 : ℝ) < exampleEntry.weight ∧ zeroEntry ∈ exampleMap.stencil 1 :=
  ⟨(stencil_weight_pos_off_zero exampleMap 1).1 exampleEntry exampleEntry_mem (by decide),
    (stencil_weight_pos_off_zero exampleMap 1).2
      (by rw [effectiveRadius_of_nonneg _ _ (by norm_num)]; norm_num)⟩

/-- C3 fails on the code: for the radius 2 the displacement `(-2, 0, 0)` is an entry of the
stencil of every map and its opposite `(2, 0, 0)` is not, because the loops run over the
half-open range `[-2, 2)`. -/
theorem stencil_radius_two_not_symmetric (m : PathMap) :
    ((-2, 0, 0) : Int × Int × Int) ∈ (m.stencil 2).map StencilEntry.displacement
      ∧ ((2, 0, 0) : Int × Int × Int) ∉ (m.stencil 2).map StencilEntry.displacement := by
  constructor
  · refine List.mem_map.mpr ⟨mkEntry m.header.nx m.header.ny (-2) 0 0, ?_, rfl⟩
    rw [mem_stencil_iff, effectiveRadius_of_nonneg _ _ (by norm_num), ceil_two_rat]
    simp [StencilEntry.sqDist, mkEntry]
    exact toDouble_le_roundDouble_of_le _ _ (by norm_num) (by norm_num)
  · intro h
    obtain ⟨e, he, hd⟩ := List.mem_map.mp h
    rw [mem_stencil_iff, effectiveRadius_of_nonneg _ _ (by norm_num), ceil_two_rat] at he
    have hz : e.dz = 2 := congrArg Prod.fst hd
    omega

theorem sqrtElevenEntry_mem : sqrtElevenEntry ∈ exampleMap.stencil sqrtElevenDouble := by
  rw [mem_stencil_iff, effectiveRadius_of_nonneg _ _ (by norm_num [sqrtElevenDouble]),
    ceil_sqrtElevenDouble, roundDouble_sqrtElevenDouble_sq]
  simp only [sqrtElevenEntry, StencilEntry.sqDist, mkEntry, exampleMap, exampleDensityHeader]
  refine ⟨by decide, by decide, by decide, ?_, by decide⟩
  rw [toDouble_of_small _ (by norm_num) (by norm_num)]
  norm_num

/-- C4 as stated fails: for the radius `fl(sqrt(11))`, the double nearest to the square root of
11, the stencil of the 5×5×5 map has the entry `(-3, -1, -1)`, whose squared distance 11 is
larger than the exact square of the radius; the double product of the radius with itself is 11,
and the code compares with that. -/
theorem stencil_entry_outside_exact_ball :
    (0 : ℚ) ≤ sqrtElevenDouble
      ∧ sqrtElevenEntry ∈ exampleMap.stencil sqrtElevenDouble
      ∧ sqrtElevenDouble ^ 2
          < ((sqrtElevenEntry.dz ^ 2 + sqrtElevenEntry.dy ^ 2 + sqrtElevenEntry.dx ^ 2 : Int) : ℚ)
      ∧ roundDouble (sqrtElevenDouble * sqrtElevenDouble) = 11 := by
  refine ⟨by norm_num [sqrtElevenDouble], sqrtElevenEntry_mem, ?_,
    roundDouble_sqrtElevenDouble_sq⟩
  norm_num [sqrtElevenDouble, sqrtElevenEntry]

/-- C4, amended: for a radius `r ≥ 0`, every entry of the stencil has a squared distance
`dz² + dy² + dx²` that is, as a double, at most `nr2`, the double product `r * r` (the exact `r²`
rounded to the nearest double); the squared distance itself is at most `nr2` when it is below
`2^53`, and it is at most the exact `r²` when `r` is an integer whose square is below
`2^53 - 1`. -/
theorem stencil_within_rounded_radius (m : PathMap) (r : ℚ) (hr : 0 ≤ r) (e : StencilEntry)
    (he : e ∈ m.stencil r) :
    toDouble (e.dz ^ 2 + e.dy ^ 2 + e.dx ^ 2) ≤ roundDouble (r * r)
      ∧ (e.dz ^ 2 + e.dy ^ 2 + e.dx ^ 2 < 2 ^ 53 →
          ((e.dz ^ 2 + e.dy ^ 2 + e.dx ^ 2 : Int) : ℚ) ≤ roundDouble (r * r))
      ∧ (∀ n : Int, r = (n : ℚ) → n * n + 1 < 2 ^ 53 →
          ((e.dz ^ 2 + e.dy ^ 2 + e.dx ^ 2 : Int) : ℚ) ≤ r ^ 2) := by
  have h := ((mem_stencil_iff m r e).mp he).2.2.2.1
  rw [effectiveRadius_of_nonneg m r hr] at h
  have e1 : e.dz ^ 2 + e.dy ^ 2 + e.dx ^ 2 = e.sqDist := by
    unfold StencilEntry.sqDist
    ring
  rw [e1]
  refine ⟨h, ?_, ?_⟩
  · intro hsmall
    rw [← toDouble_of_small _ (sqDist_nonneg e) hsmall]
    exact h
  · intro n hn hfit
    rw [hn, roundDouble_int_sq n (by omega)] at h
    have hle := le_of_toDouble_le e.sqDist (n * n) (mul_self_nonneg n) hfit h
    rw [hn, pow_two]
    exact_mod_cast hle

/-- Witness of the amended C4: the entry `(-1, 0, 0)` of the radius-1 stencil of the 5×5×5
map. -/
theorem stencil_within_rounded_radius_witness :
    (0 : ℚ) ≤ 1 ∧ exampleEntry ∈ exampleMap.stencil 1
      ∧ ((exampleEntry.dz ^ 2 + exampleEntry.dy ^ 2 + exampleEntry.dx ^ 2 : Int) : ℚ)
          ≤ (1 : ℚ) ^ 2 :=
  ⟨by norm_num, exampleEntry_mem,
    (stencil_within_rounded_radius exampleMap 1 (by norm_num) exampleEntry
      exampleEntry_mem).2.2 1 (by norm_num) (by norm_num)⟩

/-- C5: on a grid with dimensions `nx`, `ny`, every entry of the stencil has
`flatOffset = dz*nx*ny + dy*nx + dx`, and for every voxel `(x, y, z)` whose neighbor
`(x+dx, y+dy, z+dz)` is inside the grid as well, the linear index of the neighbor is the
linear index of the voxel plus `flatOffset`. -/
theorem stencil_flatOffset_is_index_delta (m : PathMap) (r : ℚ) (e : StencilEntry)
    (he : e ∈ m.stencil r) :
    e.flatOffset = e.dz * m.get_header.get_nx * m.get_header.get_ny
        + e.dy * m.get_header.get_nx + e.dx
      ∧ ∀ x y z : Int, m.get_header.inGrid x y z →
          m.get_header.inGrid (x + e.dx) (y + e.dy) (z + e.dz) →
          voxelIndex m.get_header.get_nx m.get_header.get_ny (x + e.dx) (y + e.dy) (z + e.dz)
            = voxelIndex m.get_header.get_nx m.get_header.get_ny x y z + e.flatOffset := by
  have h := ((mem_stencil_iff m r e).mp he).2.2.2.2
  have ho : e.flatOffset = e.dz * (m.header.nx * m.header.ny) + e.dy * m.header.nx + e.dx := by
    conv_lhs => rw [h]
    rfl
  simp only [PathMap.get_header, DensityHeader.get_nx, DensityHeader.get_ny, voxelIndex]
  refine ⟨by rw [ho]; ring, ?_⟩
  intro x y z _ _
  rw [ho]
  ring

/-- Witness of C5: the entry `(-1, 0, 0)` of the radius-1 stencil of the 5×5×5 map has the flat
offset `-25`, which leads from the voxel `(2, 2, 2)` to the voxel `(2, 2, 1)`. -/
theorem stencil_flatOffset_is_index_delta_witness :
    exampleEntry ∈ exampleMap.stencil 1
      ∧ exampleEntry.flatOffset = -25
      ∧ voxelIndex 5 5 2 2 1 = voxelIndex 5 5 2 2 2 + exampleEntry.flatOffset :=
  ⟨exampleEntry_mem,
    (stencil_flatOffset_is_index_delta exampleMap 1 exampleEntry exampleEntry_mem).1.trans
      (by decide),
    (stencil_flatOffset_is_index_delta exampleMap 1 exampleEntry exampleEntry_mem).2 2 2 2
      (by decide) (by decide)⟩

/-- C6: for every map, `get_neighbor_idx_offsets(0)` returns the empty list, and so the stencil
of radius 0 has no entry. -/
theorem stencil_radius_zero_empty (m : PathMap) :
    m.get_neighbor_idx_offsets 0 = [] ∧ m.stencil 0 = [] := by
  have h : m.get_neighbor_idx_offsets 0 = [] := by
    rw [get_neighbor_idx_offsets_eq, effectiveRadius_of_nonneg _ _ (le_refl 0)]
    simp [boxEntries, intRange]
  exact ⟨h, by rw [PathMap.stencil, h]; rfl⟩

theorem intRange_pairwise_lt (lo hi : Int) : (intRange lo hi).Pairwise (fun a b => a < b) := by
  unfold intRange
  refine List.Pairwise.map _ ?_ (List.pairwise_lt_range _)
  intro a b hab
  simp only [Int.ofNat_eq_coe]
  omega

theorem filter_map_eq_flatMap {α β : Type} (f : α → β) (p : β → Bool) (l : List α) :
    (l.map f).filter p = l.flatMap fun a => if p (f a) = true then [f a] else [] := by
  induction l with
  | nil => rfl
  | cons a l ih =>
    rw [List.map_cons, List.flatMap_cons, List.filter_cons, ih]
    by_cases h : p (f a) = true <;> simp [h]

theorem map_displacement_keptAt (R : ℚ) (nx ny z y x : Int) :
    (keptAt R nx ny z y x).map StencilEntry.displacement
      = if toDouble (z ^ 2 + y ^ 2 + x ^ 2) ≤ roundDouble (R * R) then [(z, y, x)] else [] := by
  have e1 : z * z + y * y + x * x = z ^ 2 + y ^ 2 + x ^ 2 := by ring
  unfold keptAt
  rw [e1]
  by_cases h : toDouble (z ^ 2 + y ^ 2 + x ^ 2) ≤ roundDouble (R * R)
  · rw [if_pos h, if_pos h]
    rfl
  · rw [if_neg h, if_neg h]
    rfl

theorem map_displacement_boxEntries (R : ℚ) (nx ny : Int) :
    (boxEntries R nx ny).map StencilEntry.displacement = keptDisplacements R := by
  unfold boxEntries keptDisplacements boxTriples
  simp only [List.map_flatMap, List.filter_flatMap, filter_map_eq_flatMap,
    map_displacement_keptAt, decide_eq_true_eq]

theorem displacements_eq_keptDisplacements (m : PathMap) (r : ℚ) :
    (m.stencil r).map StencilEntry.displacement = keptDisplacements (m.effectiveRadius r) := by
  rw [stencil_eq_boxEntries, map_displacement_boxEntries]

theorem mem_boxTriples (n z y x : Int) :
    (z, y, x) ∈ boxTriples n ↔ (-n ≤ z ∧ z < n) ∧ (-n ≤ y ∧ y < n) ∧ (-n ≤ x ∧ x < n) := by
  unfold boxTriples
  simp only [List.mem_flatMap, List.mem_map, mem_intRange, Prod.mk.injEq]
  constructor
  · rintro ⟨z', hz, y', hy, x', hx, rfl, rfl, rfl⟩
    exact ⟨hz, hy, hx⟩
  · rintro ⟨hz, hy, hx⟩
    exact ⟨z, hz, y, hy, x, hx, rfl, rfl, rfl⟩

theorem mem_keptDisplacements (r : ℚ) (z y x : Int) :
    (z, y, x) ∈ keptDisplacements r ↔
      (-⌈r⌉ ≤ z ∧ z < ⌈r⌉) ∧ (-⌈r⌉ ≤ y ∧ y < ⌈r⌉) ∧ (-⌈r⌉ ≤ x ∧ x < ⌈r⌉)
        ∧ toDouble (z ^ 2 + y ^ 2 + x ^ 2) ≤ roundDouble (r * r) := by
  unfold keptDisplacements
  rw [List.mem_filter, mem_boxTriples, decide_eq_true_eq]
  constructor
  · rintro ⟨⟨hz, hy, hx⟩, hd⟩
    exact ⟨hz, hy, hx, hd⟩
  · rintro ⟨hz, hy, hx, hd⟩
    exact ⟨⟨hz, hy, hx⟩, hd⟩

theorem mem_specStencil (r : ℚ) (z y x : Int) :
    (z, y, x) ∈ specStencil r ↔
      (-⌈r⌉ ≤ z ∧ z < ⌈r⌉) ∧ (-⌈r⌉ ≤ y ∧ y < ⌈r⌉) ∧ (-⌈r⌉ ≤ x ∧ x < ⌈r⌉)
        ∧ ((z ^ 2 + y ^ 2 + x ^ 2 : Int) : ℚ) ≤ r ^ 2 := by
  unfold specStencil
  simp only [List.mem_filter, List.mem_flatMap, List.mem_map, mem_intRange, decide_eq_true_eq,
    Prod.mk.injEq]
  constructor
  · rintro ⟨⟨z', hz, y', hy, x', hx, rfl, rfl, rfl⟩, hd⟩
    exact ⟨hz, hy, hx, hd⟩
  · rintro ⟨hz, hy, hx, hd⟩
    exact ⟨⟨z, hz, y, hy, x, hx, rfl, rfl, rfl⟩, hd⟩

theorem lexLt_ne {a b : Int × Int × Int} (h : lexLt a b) : a ≠ b := by
  rintro rfl
  unfold lexLt at h
  omega

theorem specStencil_pairwise (r : ℚ) : (specStencil r).Pairwise lexLt := by
  unfold specStencil
  refine List.Pairwise.filter _ ?_
  rw [List.pairwise_flatMap]
  constructor
  · intro z _
    rw [List.pairwise_flatMap]
    constructor
    · intro y _
      refine List.Pairwise.map _ ?_ (intRange_pairwise_lt _ _)
      intro a b hab
      exact Or.inr ⟨rfl, Or.inr ⟨rfl, hab⟩⟩
    · refine List.Pairwise.imp ?_ (intRange_pairwise_lt _ _)
      intro a b hab s hs t ht
      obtain ⟨_, _, rfl⟩ := List.mem_map.mp hs
      obtain ⟨_, _, rfl⟩ := List.mem_map.mp ht
      exact Or.inr ⟨rfl, Or.inl hab⟩
  · refine List.Pairwise.imp ?_ (intRange_pairwise_lt _ _)
    intro a b hab s hs t ht
    obtain ⟨_, _, hs'⟩ := List.mem_flatMap.mp hs
    obtain ⟨_, _, ht'⟩ := List.mem_flatMap.mp ht
    obtain ⟨_, _, rfl⟩ := List.mem_map.mp hs'
    obtain ⟨_, _, rfl⟩ := List.mem_map.mp ht'
    exact Or.inl hab

theorem specStencil_one :
    specStencil 1 = [(-1, 0, 0), (0, -1, 0), (0, 0, -1), (0, 0, 0)] := by
  have hr : intRange (-1) 1 = [-1, 0] := by decide
  unfold specStencil
  rw [ceil_one_rat]
  simp only [hr, List.flatMap_cons, List.flatMap_nil, List.map_cons, List.map_nil,
    List.append_nil, List.cons_append, List.nil_append, List.singleton_append]
  simp [List.filter_cons]

theorem boxTriples_pairwise (n : Int) : (boxTriples n).Pairwise lexLt := by
  unfold boxTriples
  rw [List.pairwise_flatMap]
  constructor
  · intro z _
    rw [List.pairwise_flatMap]
    constructor
    · intro y _
      refine List.Pairwise.map _ ?_ (intRange_pairwise_lt _ _)
      intro a b hab
      exact Or.inr ⟨rfl, Or.inr ⟨rfl, hab⟩⟩
    · refine List.Pairwise.imp ?_ (intRange_pairwise_lt _ _)
      intro a b hab s hs t ht
      obtain ⟨_, _, rfl⟩ := List.mem_map.mp hs
      obtain ⟨_, _, rfl⟩ := List.mem_map.mp ht
      exact Or.inr ⟨rfl, Or.inl hab⟩
  · refine List.Pairwise.imp ?_ (intRange_pairwise_lt _ _)
    intro a b hab s hs t ht
    obtain ⟨_, _, hs'⟩ := List.mem_flatMap.mp hs
    obtain ⟨_, _, ht'⟩ := List.mem_flatMap.mp ht
    obtain ⟨_, _, rfl⟩ := List.mem_map.mp hs'
    obtain ⟨_, _, rfl⟩ := List.mem_map.mp ht'
    exact Or.inl hab

theorem keptDisplacements_pairwise (r : ℚ) : (keptDisplacements r).Pairwise lexLt :=
  List.Pairwise.filter _ (boxTriples_pairwise _)

theorem keptDisplacements_nodup (r : ℚ) : (keptDisplacements r).Nodup :=
  (keptDisplacements_pairwise r).imp fun h => lexLt_ne h

theorem sq_sum_nonneg (z y x : Int) : 0 ≤ z ^ 2 + y ^ 2 + x ^ 2 := by positivity

theorem keptDisplacements_eq_specStencil_of_int (n : Int) (hn : n * n + 1 < 2 ^ 53) :
    keptDisplacements (n : ℚ) = specStencil (n : ℚ) := by
  show (boxTriples ⌈(n : ℚ)⌉).filter _ = (boxTriples ⌈(n : ℚ)⌉).filter _
  apply List.filter_congr
  intro t _
  apply decide_eq_decide.mpr
  have hsq : (n : ℚ) ^ 2 = ((n * n : Int) : ℚ) := by
    push_cast
    ring
  rw [roundDouble_int_sq n (by omega), hsq, Int.cast_le]
  constructor
  · intro h
    exact le_of_toDouble_le _ (n * n) (mul_self_nonneg n) hn h
  · intro h
    apply le_trans (b := toDouble (n * n))
    · exact toDouble_mono (sq_sum_nonneg _ _ _) h
    · rw [toDouble_of_small _ (mul_self_nonneg n) (by omega)]

theorem keptDisplacements_one :
    keptDisplacements 1 = [(-1, 0, 0), (0, -1, 0), (0, 0, -1), (0, 0, 0)] := by
  have h := keptDisplacements_eq_specStencil_of_int 1 (by norm_num)
  rw [Int.cast_one] at h
  rw [h, specStencil_one]

/-- C7 as stated fails: for the radius `fl(sqrt(11))` the list returned on the 5×5×5 map has the
displacement `(-3, -1, -1)`, of squared distance 11, and the reference list of the spec, which
keeps the triples with squared distance at most the exact `r²`, does not have it. -/
theorem stencil_differs_from_spec_on_rounding :
    (0 : ℚ) ≤ sqrtElevenDouble
      ∧ ((-3, -1, -1) : Int × Int × Int)
          ∈ (exampleMap.stencil sqrtElevenDouble).map StencilEntry.displacement
      ∧ ((-3, -1, -1) : Int × Int × Int) ∉ specStencil sqrtElevenDouble := by
  refine ⟨by norm_num [sqrtElevenDouble], List.mem_map.mpr ⟨sqrtElevenEntry,
    sqrtElevenEntry_mem, rfl⟩, ?_⟩
  rw [mem_specStencil]
  rintro ⟨_, _, _, h⟩
  norm_num [sqrtElevenDouble] at h

/-- C7, amended: for a radius `r ≥ 0`, the displacement triples returned by
`get_neighbor_idx_offsets(r)` are, in order, the triples of the box `[-n, n)³`, `n = ceil(r)`,
whose squared distance, as a double, is at most `nr2`, the double product `r * r` (the exact `r²`
rounded to the nearest double); they are strictly increasing in the lexicographic order with
`z` most significant, no triple occurs twice, and for an integer radius whose square is below
`2^53 - 1` they are the reference list of the spec. -/
theorem stencil_displacements_eq_kept (m : PathMap) (r : ℚ) (hr : 0 ≤ r) :
    (m.stencil r).map StencilEntry.displacement = keptDisplacements r
      ∧ ((m.stencil r).map StencilEntry.displacement).Pairwise lexLt
      ∧ ((m.stencil r).map StencilEntry.displacement).Nodup
      ∧ (∀ z y x : Int, (z, y, x) ∈ (m.stencil r).map StencilEntry.displacement ↔
          (-⌈r⌉ ≤ z ∧ z < ⌈r⌉) ∧ (-⌈r⌉ ≤ y ∧ y < ⌈r⌉) ∧ (-⌈r⌉ ≤ x ∧ x < ⌈r⌉)
            ∧ toDouble (z ^ 2 + y ^ 2 + x ^ 2) ≤ roundDouble (r * r))
      ∧ (∀ n : Int, r = (n : ℚ) → n * n + 1 < 2 ^ 53 →
          (m.stencil r).map StencilEntry.displacement = specStencil r) := by
  have heq : (m.stencil r).map StencilEntry.displacement = keptDisplacements r := by
    rw [displacements_eq_keptDisplacements, effectiveRadius_of_nonneg m r hr]
  rw [heq]
  refine ⟨rfl, keptDisplacements_pairwise r, keptDisplacements_nodup r,
    mem_keptDisplacements r, ?_⟩
  intro n hn hfit
  rw [hn]
  exact keptDisplacements_eq_specStencil_of_int n hfit

/-- Witness of the amended C7: the radius-1 stencil of the 5×5×5 map. -/
theorem stencil_displacements_eq_kept_witness :
    (0 : ℚ) ≤ 1
      ∧ (exampleMap.stencil 1).map StencilEntry.displacement
          = [(-1, 0, 0), (0, -1, 0), (0, 0, -1), (0, 0, 0)] :=
  ⟨by norm_num,
    (stencil_displacements_eq_kept exampleMap 1 (by norm_num)).1.trans keptDisplacements_one⟩

theorem truncToInt_nine_fifths : truncToInt (9 / 5 : ℚ) = 1 := by
  unfold truncToInt
  rw [if_pos (by norm_num), Int.floor_eq_iff]
  norm_num

theorem doubleToInt_of_fits (q : ℚ) (h1 : -2 ^ 31 ≤ truncToInt q) (h2 : truncToInt q < 2 ^ 31) :
    doubleToInt q = truncToInt q := by
  unfold doubleToInt
  rw [if_pos ⟨h1, h2⟩]

theorem doubleToInt_nine_fifths : doubleToInt (9 / 5 : ℚ) = 1 := by
  rw [doubleToInt_of_fits _ (by rw [truncToInt_nine_fifths]; norm_num)
    (by rw [truncToInt_nine_fifths]; norm_num), truncToInt_nine_fifths]

theorem effectiveRadius_default_configured (m : PathMap) (a : ℚ) :
    (m.configure_neighbor_radius a).effectiveRadius (-1) = (doubleToInt a : ℚ) := by
  simp [PathMap.effectiveRadius, PathMap.configure_neighbor_radius,
    PathMap.update_path_map_header, PathMap.get_path_map_header,
    PathMapHeader.set_neighbor_radius, PathMapHeader.get_neighbor_radius]

theorem sqDist_le_one_of_mem_default (m : PathMap) (e : StencilEntry)
    (he : e ∈ entries (m.configure_neighbor_radius (9 / 5)).get_neighbor_idx_offsets_default) :
    e.sqDist ≤ 1 := by
  have h := ((mem_stencil_iff _ _ e).mp he).2.2.2.1
  rw [effectiveRadius_default_configured, doubleToInt_nine_fifths, Int.cast_one,
    roundDouble_one_mul_one] at h
  exact le_of_toDouble_le e.sqDist 1 (by norm_num) (by norm_num) (by simpa using h)

/-- C8 fails on the code: after `set_neighbor_radius(1.8)` the header holds the radius 1, and the
stencil built with the default argument has neither `(0, -1, -1)` nor `(-1, -1, -1)`; the same
displacements are entries when 1.8 is passed to `get_neighbor_idx_offsets` directly. -/
theorem configured_radius_truncated_drops_diagonals (m : PathMap) :
    (m.configure_neighbor_radius (9 / 5)).get_path_map_header.get_neighbor_radius = 1
      ∧ ((0, -1, -1) : Int × Int × Int) ∉
          (entries (m.configure_neighbor_radius (9 / 5)).get_neighbor_idx_offsets_default).map
            StencilEntry.displacement
      ∧ ((-1, -1, -1) : Int × Int × Int) ∉
          (entries (m.configure_neighbor_radius (9 / 5)).get_neighbor_idx_offsets_default).map
            StencilEntry.displacement
      ∧ ((0, -1, -1) : Int × Int × Int) ∈ (m.stencil (9 / 5)).map StencilEntry.displacement
      ∧ ((-1, -1, -1) : Int × Int × Int) ∈ (m.stencil (9 / 5)).map StencilEntry.displacement := by
  refine ⟨?_, ?_, ?_, ?_, ?_⟩
  · simp [PathMap.configure_neighbor_radius, PathMap.update_path_map_header,
      PathMap.get_path_map_header, PathMapHeader.set_neighbor_radius,
      PathMapHeader.get_neighbor_radius, doubleToInt_nine_fifths]
  · intro h
    obtain ⟨e, he, hd⟩ := List.mem_map.mp h
    have h1 := sqDist_le_one_of_mem_default m e he
    have hz : e.dz = 0 := congrArg Prod.fst hd
    have hy : e.dy = -1 := congrArg (fun t => t.2.1) hd
    have hx : e.dx = -1 := congrArg (fun t => t.2.2) hd
    rw [StencilEntry.sqDist, hz, hy, hx] at h1
    omega
  · intro h
    obtain ⟨e, he, hd⟩ := List.mem_map.mp h
    have h1 := sqDist_le_one_of_mem_default m e he
    have hz : e.dz = -1 := congrArg Prod.fst hd
    have hy : e.dy = -1 := congrArg (fun t => t.2.1) hd
    have hx : e.dx = -1 := congrArg (fun t => t.2.2) hd
    rw [StencilEntry.sqDist, hz, hy, hx] at h1
    omega
  · refine List.mem_map.mpr ⟨mkEntry m.header.nx m.header.ny 0 (-1) (-1), ?_, rfl⟩
    rw [mem_stencil_iff, effectiveRadius_of_nonneg _ _ (by norm_num), ceil_nine_fifths]
    simp [StencilEntry.sqDist, mkEntry]
    exact toDouble_le_roundDouble_of_le _ _ (by norm_num) (by norm_num)
  · refine List.mem_map.mpr ⟨mkEntry m.header.nx m.header.ny (-1) (-1) (-1), ?_, rfl⟩
    rw [mem_stencil_iff, effectiveRadius_of_nonneg _ _ (by norm_num), ceil_nine_fifths]
    simp [StencilEntry.sqDist, mkEntry]
    exact toDouble_le_roundDouble_of_le _ _ (by norm_num) (by norm_num)

theorem doubleToInt_nonneg (a : ℚ) (h0 : 0 ≤ a) (h1 : a < 2 ^ 31) : 0 ≤ doubleToInt a := by
  have ht : truncToInt a = ⌊a⌋ := by
    unfold truncToInt
    rw [if_pos h0]
  have hlo : 0 ≤ ⌊a⌋ := Int.floor_nonneg.mpr h0
  have hhi : ⌊a⌋ < 2 ^ 31 := by
    rw [Int.floor_lt]
    exact_mod_cast h1
  rw [doubleToInt_of_fits a (by rw [ht]; omega) (by rw [ht]; exact hhi), ht]
  exact hlo

theorem doubleToInt_neg_three : doubleToInt (-3 : ℚ) = -3 := by
  have h : truncToInt (-3 : ℚ) = -3 := by
    have := truncToInt_intCast (-3)
    simpa using this
  rw [doubleToInt_of_fits _ (by rw [h]; norm_num) (by rw [h]; norm_num), h]

/-- C9 as stated fails: the example header holds the radius 2, and after
`set_neighbor_radius(-3)` it holds the radius -3. -/
theorem set_neighbor_radius_stores_negative :
    0 ≤ exampleHeader.get_neighbor_radius
      ∧ (exampleHeader.set_neighbor_radius (-3)).2.get_neighbor_radius = -3
      ∧ (exampleHeader.set_neighbor_radius (-3)).2.get_neighbor_radius < 0 := by
  have h : (exampleHeader.set_neighbor_radius (-3)).2.get_neighbor_radius = -3 := by
    simp [PathMapHeader.set_neighbor_radius, PathMapHeader.get_neighbor_radius,
      doubleToInt_neg_three]
  refine ⟨by decide, h, ?_⟩
  rw [h]
  decide

/-- C9, amended: on a header whose neighbor radius is `≥ 0`, the radius is still `≥ 0` after
`set_obstacle_threshold`, `set_origin` and `set_path_origin` with any arguments, and after
`set_neighbor_radius(a)` for every argument `0 ≤ a < 2^31`; the setter checks nothing, so other
arguments are not covered. -/
theorem neighbor_radius_nonneg_kept (get_grid_edge_length : PathMapHeader → ℚ)
    (h : PathMapHeader) (hr : 0 ≤ h.get_neighbor_radius) (a t x y z : ℚ) (v : Vector3D) :
    0 ≤ (h.set_obstacle_threshold t).get_neighbor_radius
      ∧ 0 ≤ (h.set_origin x y z).get_neighbor_radius
      ∧ 0 ≤ (h.set_path_origin get_grid_edge_length v).get_neighbor_radius
      ∧ (0 ≤ a → a < 2 ^ 31 → 0 ≤ (h.set_neighbor_radius a).2.get_neighbor_radius) :=
  ⟨hr, hr, hr, fun h0 h1 => doubleToInt_nonneg a h0 h1⟩

/-- Witness of the amended C9, on the example header with the arguments 9/5, 1/2 and the
origin `(1, 2, 3)`. -/
theorem neighbor_radius_nonneg_kept_witness :
    0 ≤ exampleHeader.get_neighbor_radius
      ∧ 0 ≤ (exampleHeader.set_obstacle_threshold (1 / 2)).get_neighbor_radius
      ∧ 0 ≤ (exampleHeader.set_origin 1 2 3).get_neighbor_radius
      ∧ 0 ≤ (exampleHeader.set_path_origin exampleEdgeLength
              examplePathOrigin).get_neighbor_radius
      ∧ 0 ≤ (exampleHeader.set_neighbor_radius (9 / 5)).2.get_neighbor_radius :=
  ⟨by decide,
    (neighbor_radius_nonneg_kept exampleEdgeLength exampleHeader (by decide) (9 / 5)
      (1 / 2) 1 2 3 examplePathOrigin).1,
    (neighbor_radius_nonneg_kept exampleEdgeLength exampleHeader (by decide) (9 / 5)
      (1 / 2) 1 2 3 examplePathOrigin).2.1,
    (neighbor_radius_nonneg_kept exampleEdgeLength exampleHeader (by decide) (9 / 5)
      (1 / 2) 1 2 3 examplePathOrigin).2.2.1,
    (neighbor_radius_nonneg_kept exampleEdgeLength exampleHeader (by decide) (9 / 5)
      (1 / 2) 1 2 3 examplePathOrigin).2.2.2 (by norm_num) (by norm_num)⟩

/-- C10: when `get_grid_edge_length` does not depend on the origin fields of the header, then
after `set_path_origin(v)` the path origin is `v` and every coordinate of `get_origin()` is the
coordinate of `v` minus half the grid edge length. -/
theorem set_path_origin_centres_grid (get_grid_edge_length : PathMapHeader → ℚ)
    (hindep : ∀ (h : PathMapHeader) (p : Vector3D) (x y z : ℚ),
      get_grid_edge_length (h.withOrigins p x y z) = get_grid_edge_length h)
    (h : PathMapHeader) (v : Vector3D) :
    (h.set_path_origin get_grid_edge_length v).get_path_origin = v
      ∧ ∀ i : Fin 3,
          (h.set_path_origin get_grid_edge_length v).get_origin.get i
            = v.get i - get_grid_edge_length (h.set_path_origin get_grid_edge_length v) / 2 := by
  have hpost : get_grid_edge_length (h.set_path_origin get_grid_edge_length v)
      = get_grid_edge_length { h with path_origin_ := v } := by
    have h1 := hindep h v
      (v.get 0 - get_grid_edge_length { h with path_origin_ := v } / 2)
      (v.get 1 - get_grid_edge_length { h with path_origin_ := v } / 2)
      (v.get 2 - get_grid_edge_length { h with path_origin_ := v } / 2)
    have h2 := hindep h v h.density_header_.xorigin h.density_header_.yorigin
      h.density_header_.zorigin
    have e2 : h.withOrigins v h.density_header_.xorigin h.density_header_.yorigin
        h.density_header_.zorigin = { h with path_origin_ := v } := rfl
    rw [e2] at h2
    rw [h2, ← h1]
    rfl
  refine ⟨rfl, ?_⟩
  intro i
  rw [hpost]
  fin_cases i <;> rfl

/-- Witness of C10: the example header, the edge length `2 * max_path_length_ = 20` and the
path origin `(1, 2, 3)`; the grid corner becomes `(-9, -8, -7)`. -/
theorem set_path_origin_centres_grid_witness :
    (∀ (h : PathMapHeader) (p : Vector3D) (x y z : ℚ),
        exampleEdgeLength (h.withOrigins p x y z) = exampleEdgeLength h)
      ∧ (exampleHeader.set_path_origin exampleEdgeLength examplePathOrigin).get_path_origin
          = examplePathOrigin
      ∧ (exampleHeader.set_path_origin exampleEdgeLength examplePathOrigin).get_origin.get 0 = -9
      ∧ (exampleHeader.set_path_origin exampleEdgeLength examplePathOrigin).get_origin.get 1 = -8
      ∧ (exampleHeader.set_path_origin exampleEdgeLength examplePathOrigin).get_origin.get 2
          = -7 :=
  ⟨fun _ _ _ _ _ => rfl,
    (set_path_origin_centres_grid exampleEdgeLength (fun _ _ _ _ _ => rfl) exampleHeader
      examplePathOrigin).1,
    ((set_path_origin_centres_grid exampleEdgeLength (fun _ _ _ _ _ => rfl) exampleHeader
      examplePathOrigin).2 0).trans (by
        norm_num [exampleEdgeLength, examplePathOrigin, exampleHeader, Vector3D.get,
          PathMapHeader.set_path_origin]),
    ((set_path_origin_centres_grid exampleEdgeLength (fun _ _ _ _ _ => rfl) exampleHeader
      examplePathOrigin).2 1).trans (by
        norm_num [exampleEdgeLength, examplePathOrigin, exampleHeader, Vector3D.get,
          PathMapHeader.set_path_origin]),
    ((set_path_origin_centres_grid exampleEdgeLength (fun _ _ _ _ _ => rfl) exampleHeader
      examplePathOrigin).2 2).trans (by
        norm_num [exampleEdgeLength, examplePathOrigin, exampleHeader, Vector3D.get,
          PathMapHeader.set_path_origin])⟩

theorem effectiveRadius_eq_of_header (m₁ m₂ : PathMap) (r : ℚ)
    (hrad : r < 0 →
      m₁.get_path_map_header.get_neighbor_radius = m₂.get_path_map_header.get_neighbor_radius) :
    m₁.effectiveRadius r = m₂.effectiveRadius r := by
  unfold PathMap.effectiveRadius
  by_cases h : r < 0
  · rw [if_pos h, if_pos h, hrad h]
  · rw [if_neg h, if_neg h]

theorem map_geometry_boxEntries (R : ℚ) (nx ny nx' ny' : Int) :
    (boxEntries R nx ny).map StencilEntry.geometry
      = (boxEntries R nx' ny').map StencilEntry.geometry := by
  have hk : ∀ z y x : Int, (keptAt R nx ny z y x).map StencilEntry.geometry
      = (keptAt R nx' ny' z y x).map StencilEntry.geometry := by
    intro z y x
    unfold keptAt
    split <;> simp [mkEntry, StencilEntry.geometry]
  unfold boxEntries
  simp only [List.map_flatMap, hk]

/-- C11: two calls of `get_neighbor_idx_offsets` with the same radius argument (and, when the
argument is negative, the same configured radius behind it) on maps with the same `nx` and `ny`
return identical lists, whatever else the two maps hold; and the displacement and weight
components of the entries are the same on any two maps, whatever their `nx` and `ny`. -/
theorem stencil_deterministic (m₁ m₂ : PathMap) (r : ℚ)
    (hrad : r < 0 →
      m₁.get_path_map_header.get_neighbor_radius = m₂.get_path_map_header.get_neighbor_radius) :
    (m₁.get_header.get_nx = m₂.get_header.get_nx →
        m₁.get_header.get_ny = m₂.get_header.get_ny →
        m₁.get_neighbor_idx_offsets r = m₂.get_neighbor_idx_offsets r)
      ∧ (m₁.stencil r).map StencilEntry.geometry = (m₂.stencil r).map StencilEntry.geometry := by
  have hR := effectiveRadius_eq_of_header m₁ m₂ r hrad
  constructor
  · intro hnx hny
    simp only [PathMap.get_header, DensityHeader.get_nx, DensityHeader.get_ny] at hnx hny
    rw [get_neighbor_idx_offsets_eq, get_neighbor_idx_offsets_eq, hR, hnx, hny]
  · rw [stencil_eq_boxEntries, stencil_eq_boxEntries, hR]
    exact map_geometry_boxEntries _ _ _ _ _

/-- Witness of C11: the fresh 5×5×5 map and a 5×5×9 map with densities and search state return
the same list for the radius 1. -/
theorem stencil_deterministic_witness :
    exampleMap.get_neighbor_idx_offsets 1 = exampleMapAfterSearch.get_neighbor_idx_offsets 1
      ∧ (exampleMap.stencil 1).map StencilEntry.geometry
          = (exampleMapAfterSearch.stencil 1).map StencilEntry.geometry :=
  ⟨(stencil_deterministic exampleMap exampleMapAfterSearch 1
      (fun h => absurd h (by norm_num))).1 rfl rfl,
    (stencil_deterministic exampleMap exampleMapAfterSearch 1
      (fun h => absurd h (by norm_num))).2⟩

theorem count_eq_one_of_mem_of_nodup {α : Type} [BEq α] [LawfulBEq α] {a : α} {l : List α}
    (hn : l.Nodup) (ha : a ∈ l) : l.count a = 1 := by
  induction l with
  | nil => cases ha
  | cons b l ih =>
    obtain ⟨hb, hl⟩ := List.nodup_cons.mp hn
    rw [List.count_cons]
    by_cases hab : b = a
    · subst hab
      rw [List.count_eq_zero_of_not_mem hb]
      simp
    · have hal : a ∈ l := by
        rcases List.mem_cons.mp ha with h | h
        · exact absurd h.symm hab
        · exact h
      rw [ih hl hal]
      simp [hab]

theorem coord_in_box_of_sq_le (r : ℚ) (hr : 0 < r) (hni : ∀ n : Int, (n : ℚ) ≠ r) (a s : Int)
    (hs : 0 ≤ s) (hd : ((a ^ 2 + s : Int) : ℚ) ≤ r ^ 2) : -⌈r⌉ ≤ a ∧ a < ⌈r⌉ := by
  have hsq : (a : ℚ) ^ 2 ≤ r ^ 2 := by
    have hs' : (0 : ℚ) ≤ (s : ℚ) := by exact_mod_cast hs
    have hd' : (a : ℚ) ^ 2 + (s : ℚ) ≤ r ^ 2 := by exact_mod_cast hd
    linarith
  obtain ⟨hlo, hhi⟩ := abs_le_of_sq_le_sq' hsq hr.le
  have hlt : r < (⌈r⌉ : ℚ) := lt_of_le_of_ne (Int.le_ceil r) (fun h => hni ⌈r⌉ h.symm)
  constructor
  · have h1 : (-(⌈r⌉ : ℚ)) ≤ (a : ℚ) := by linarith
    exact_mod_cast h1
  · have h2 : (a : ℚ) < (⌈r⌉ : ℚ) := by linarith
    exact_mod_cast h2

theorem three_halves_not_int (n : Int) : (n : ℚ) ≠ 3 / 2 := by
  intro h
  have h2 : ((2 * n : Int) : ℚ) = ((3 : Int) : ℚ) := by
    push_cast
    rw [h]
    norm_num
  have h2' : 2 * n = 3 := by exact_mod_cast h2
  omega

/-- C12: for a radius `r > 0` that is not an integer, every integer displacement `(dz, dy, dx)`
with `dz² + dy² + dx² ≤ r²` occurs exactly once among the displacements of the stencil returned
by `get_neighbor_idx_offsets(r)`. -/
theorem stencil_complete_of_non_integer (m : PathMap) (r : ℚ) (hr : 0 < r)
    (hni : ∀ n : Int, (n : ℚ) ≠ r) (z y x : Int)
    (hd : ((z ^ 2 + y ^ 2 + x ^ 2 : Int) : ℚ) ≤ r ^ 2) :
    ((m.stencil r).map StencilEntry.displacement).count (z, y, x) = 1 := by
  rw [displacements_eq_keptDisplacements, effectiveRadius_of_nonneg m r hr.le]
  apply count_eq_one_of_mem_of_nodup (keptDisplacements_nodup r)
  rw [mem_keptDisplacements]
  refine ⟨?_, ?_, ?_, ?_⟩
  · apply coord_in_box_of_sq_le r hr hni z (y ^ 2 + x ^ 2) (by positivity)
    rw [← add_assoc]
    exact hd
  · apply coord_in_box_of_sq_le r hr hni y (z ^ 2 + x ^ 2) (by positivity)
    have e : y ^ 2 + (z ^ 2 + x ^ 2) = z ^ 2 + y ^ 2 + x ^ 2 := by ring
    rw [e]
    exact hd
  · apply coord_in_box_of_sq_le r hr hni x (z ^ 2 + y ^ 2) (by positivity)
    have e : x ^ 2 + (z ^ 2 + y ^ 2) = z ^ 2 + y ^ 2 + x ^ 2 := by ring
    rw [e]
    exact hd
  · apply toDouble_le_roundDouble_of_le _ _ (sq_sum_nonneg z y x)
    rw [← pow_two]
    exact hd

/-- Witness of C12: for the radius 3/2 the displacement `(1, 1, 0)`, of squared distance 2,
occurs exactly once in the stencil of the 5×5×5 map. -/
theorem stencil_complete_of_non_integer_witness :
    (0 : ℚ) < 3 / 2 ∧ (∀ n : Int, (n : ℚ) ≠ 3 / 2)
      ∧ (((1 : Int) ^ 2 + 1 ^ 2 + 0 ^ 2 : Int) : ℚ) ≤ (3 / 2 : ℚ) ^ 2
      ∧ ((exampleMap.stencil (3 / 2)).map StencilEntry.displacement).count (1, 1, 0) = 1 :=
  ⟨by norm_num, three_halves_not_int, by norm_num,
    stencil_complete_of_non_integer exampleMap (3 / 2) (by norm_num) three_halves_not_int 1 1 0
      (by norm_num)⟩

theorem effectiveRadius_of_neg (m : PathMap) (r : ℚ) (hr : r < 0) :
    m.effectiveRadius r = (m.get_path_map_header.get_neighbor_radius : ℚ) := by
  simp [PathMap.effectiveRadius, hr]

theorem effectiveRadius_header_radius (m : PathMap) :
    m.effectiveRadius (m.get_path_map_header.get_neighbor_radius : ℚ)
      = (m.get_path_map_header.get_neighbor_radius : ℚ) := by
  unfold PathMap.effectiveRadius
  split <;> rfl

/-- C13: for a negative radius argument, and so for the default argument -1,
`get_neighbor_idx_offsets` returns the list it returns for the header's configured radius; for
an argument `r ≥ 0` the result is the same after any change of the path-map header, so the
configured radius has no influence on it. -/
theorem negative_radius_selects_configured (m : PathMap) (r : ℚ) :
    (r < 0 → m.get_neighbor_idx_offsets r
        = m.get_neighbor_idx_offsets (m.get_path_map_header.get_neighbor_radius : ℚ))
      ∧ m.get_neighbor_idx_offsets_default
          = m.get_neighbor_idx_offsets (m.get_path_map_header.get_neighbor_radius : ℚ)
      ∧ (0 ≤ r → ∀ f : PathMapHeader → PathMapHeader,
          (m.update_path_map_header f).get_neighbor_idx_offsets r
            = m.get_neighbor_idx_offsets r) := by
  have hneg : ∀ q : ℚ, q < 0 → m.get_neighbor_idx_offsets q
      = m.get_neighbor_idx_offsets (m.get_path_map_header.get_neighbor_radius : ℚ) := by
    intro q hq
    rw [get_neighbor_idx_offsets_eq, get_neighbor_idx_offsets_eq, effectiveRadius_of_neg m q hq,
      effectiveRadius_header_radius]
  refine ⟨hneg r, hneg (-1) (by norm_num), ?_⟩
  intro hr f
  rw [get_neighbor_idx_offsets_eq, get_neighbor_idx_offsets_eq,
    effectiveRadius_of_nonneg _ _ hr, effectiveRadius_of_nonneg _ _ hr]
  rfl

/-- Witness of C13: on the 5×5×5 map, whose header holds the radius 2, the arguments -1 and
-7/2 give the list of the radius 2, and the list of the radius 1 is the same after the header's
radius has been set to 3. -/
theorem negative_radius_selects_configured_witness :
    exampleMap.get_neighbor_idx_offsets (-7 / 2) = exampleMap.get_neighbor_idx_offsets 2
      ∧ exampleMap.get_neighbor_idx_offsets_default = exampleMap.get_neighbor_idx_offsets 2
      ∧ (exampleMap.configure_neighbor_radius 3).get_neighbor_idx_offsets 1
          = exampleMap.get_neighbor_idx_offsets 1 :=
  ⟨((negative_radius_selects_configured exampleMap (-7 / 2)).1 (by norm_num)).trans
      (by norm_num [PathMap.get_path_map_header, PathMapHeader.get_neighbor_radius, exampleMap,
        exampleHeader]),
    (negative_radius_selects_configured exampleMap (-7 / 2)).2.1.trans
      (by norm_num [PathMap.get_path_map_header, PathMapHeader.get_neighbor_radius, exampleMap,
        exampleHeader]),
    (negative_radius_selects_configured exampleMap 1).2.2 (by norm_num)
      (fun h => (h.set_neighbor_radius 3).2)⟩

theorem eq_zero_of_mul_add_eq_zero (d k t : Int) (ht : |t| < k) (h : d * k + t = 0) :
    d = 0 ∧ t = 0 := by
  have hk : 0 < k := lt_of_le_of_lt (abs_nonneg t) ht
  have hdvd : k ∣ t := ⟨-d, by linarith⟩
  have ht0 : t = 0 := Int.eq_zero_of_abs_lt_dvd hdvd ht
  refine ⟨?_, ht0⟩
  rw [ht0, add_zero] at h
  rcases mul_eq_zero.mp h with h' | h'
  · exact h'
  · omega

theorem flatOffset_injective_on_box (n nx ny z₁ y₁ x₁ z₂ y₂ x₂ : Int)
    (hnx : 2 * n ≤ nx) (hny : 2 * n ≤ ny)
    (hz₁ : -n ≤ z₁ ∧ z₁ < n) (hy₁ : -n ≤ y₁ ∧ y₁ < n) (hx₁ : -n ≤ x₁ ∧ x₁ < n)
    (_hz₂ : -n ≤ z₂ ∧ z₂ < n) (hy₂ : -n ≤ y₂ ∧ y₂ < n) (hx₂ : -n ≤ x₂ ∧ x₂ < n)
    (h : z₁ * (nx * ny) + y₁ * nx + x₁ = z₂ * (nx * ny) + y₂ * nx + x₂) :
    z₁ = z₂ ∧ y₁ = y₂ ∧ x₁ = x₂ := by
  have hnx0 : 0 < nx := by omega
  have hbound : |(y₁ - y₂) * nx + (x₁ - x₂)| < nx * ny := by
    rw [abs_lt]
    have h1 : (y₁ - y₂) * nx ≤ (2 * n - 1) * nx :=
      mul_le_mul_of_nonneg_right (by omega) hnx0.le
    have h2 : -(2 * n - 1) * nx ≤ (y₁ - y₂) * nx :=
      mul_le_mul_of_nonneg_right (by omega) hnx0.le
    have h3 : nx * (2 * n) ≤ nx * ny := mul_le_mul_of_nonneg_left hny hnx0.le
    constructor
    · nlinarith
    · nlinarith
  have hz := eq_zero_of_mul_add_eq_zero (z₁ - z₂) (nx * ny) ((y₁ - y₂) * nx + (x₁ - x₂))
    hbound (by linarith)
  have hxb : |x₁ - x₂| < nx := by
    rw [abs_lt]
    constructor <;> omega
  have hy := eq_zero_of_mul_add_eq_zero (y₁ - y₂) nx (x₁ - x₂) hxb hz.2
  refine ⟨by omega, by omega, by omega⟩

theorem flatOffset_injective_on_stencil (m : PathMap) (r : ℚ)
    (hnx : 2 * ⌈m.effectiveRadius r⌉ ≤ m.header.nx)
    (hny : 2 * ⌈m.effectiveRadius r⌉ ≤ m.header.ny)
    (e₁ e₂ : StencilEntry) (h₁ : e₁ ∈ m.stencil r) (h₂ : e₂ ∈ m.stencil r)
    (h : e₁.flatOffset = e₂.flatOffset) : e₁ = e₂ := by
  obtain ⟨hz₁, hy₁, hx₁, _, he₁⟩ := (mem_stencil_iff m r e₁).mp h₁
  obtain ⟨hz₂, hy₂, hx₂, _, he₂⟩ := (mem_stencil_iff m r e₂).mp h₂
  have ho₁ : e₁.flatOffset = e₁.dz * (m.header.nx * m.header.ny) + e₁.dy * m.header.nx + e₁.dx := by
    conv_lhs => rw [he₁]
    rfl
  have ho₂ : e₂.flatOffset = e₂.dz * (m.header.nx * m.header.ny) + e₂.dy * m.header.nx + e₂.dx := by
    conv_lhs => rw [he₂]
    rfl
  obtain ⟨hz, hy, hx⟩ := flatOffset_injective_on_box _ _ _ _ _ _ _ _ _ hnx hny
    hz₁ hy₁ hx₁ hz₂ hy₂ hx₂ (by rw [← ho₁, ← ho₂, h])
  rw [he₁, he₂, hz, hy, hx]

theorem stencil_nodup (m : PathMap) (r : ℚ) : (m.stencil r).Nodup := by
  apply List.Nodup.of_map StencilEntry.displacement
  rw [stencil_eq_boxEntries, map_displacement_boxEntries]
  exact keptDisplacements_nodup _

theorem effectiveRadius_default_of_header_two (m : PathMap)
    (h : m.get_path_map_header.get_neighbor_radius = 2) : m.effectiveRadius (-1) = 2 := by
  rw [effectiveRadius_of_neg m (-1) (by norm_num), h]
  norm_num

theorem smallMapEntryA_mem : smallMapEntryA ∈ smallMap.stencil (-1) := by
  rw [mem_stencil_iff, effectiveRadius_default_of_header_two smallMap rfl, ceil_two_rat]
  simp only [smallMapEntryA, StencilEntry.sqDist, mkEntry, smallMap]
  refine ⟨by decide, by decide, by decide, ?_, by decide⟩
  exact toDouble_le_roundDouble_of_le _ _ (by norm_num) (by norm_num)

theorem smallMapEntryB_mem : smallMapEntryB ∈ smallMap.stencil (-1) := by
  rw [mem_stencil_iff, effectiveRadius_default_of_header_two smallMap rfl, ceil_two_rat]
  simp only [smallMapEntryB, StencilEntry.sqDist, mkEntry, smallMap]
  refine ⟨by decide, by decide, by decide, ?_, by decide⟩
  exact toDouble_le_roundDouble_of_le _ _ (by norm_num) (by norm_num)

/-- C14 as stated fails: on the 3×3×3 map, whose header holds the radius 2, the argument -1
meets the conditions of the claim (`2*ceil(-1) = -2` is at most `nx = ny = 3`), and the stencil
of the call has the two different entries `(0, -1, 1)` and `(0, 0, -2)` with the same flat
offset -2. -/
theorem flatOffset_collides_on_small_grid :
    2 * ⌈(-1 : ℚ)⌉ ≤ smallMap.get_header.get_nx
      ∧ 2 * ⌈(-1 : ℚ)⌉ ≤ smallMap.get_header.get_ny
      ∧ smallMapEntryA ∈ smallMap.stencil (-1)
      ∧ smallMapEntryB ∈ smallMap.stencil (-1)
      ∧ smallMapEntryA ≠ smallMapEntryB
      ∧ smallMapEntryA.flatOffset = smallMapEntryB.flatOffset := by
  have hc : ⌈(-1 : ℚ)⌉ = -1 := by
    rw [Int.ceil_eq_iff]
    norm_num
  refine ⟨?_, ?_, smallMapEntryA_mem, smallMapEntryB_mem, by decide, rfl⟩
  · rw [hc]
    decide
  · rw [hc]
    decide

/-- C14, amended: on a grid whose `nx` and `ny` are at least the box width `2*ceil(R)` of the
radius `R` the loops run with (`R = r` for `r ≥ 0`, the header's configured radius for `r < 0`),
the flat offsets of the stencil returned by `get_neighbor_idx_offsets(r)` are pairwise
different: no flat offset occurs twice in the list, and two different entries never share
one. -/
theorem stencil_flatOffset_injective_of_box (m : PathMap) (r : ℚ)
    (hnx : 2 * ⌈m.effectiveRadius r⌉ ≤ m.get_header.get_nx)
    (hny : 2 * ⌈m.effectiveRadius r⌉ ≤ m.get_header.get_ny) :
    ((m.stencil r).map StencilEntry.flatOffset).Nodup
      ∧ ∀ e₁ ∈ m.stencil r, ∀ e₂ ∈ m.stencil r, e₁ ≠ e₂ → e₁.flatOffset ≠ e₂.flatOffset := by
  have hinj : ∀ e₁ ∈ m.stencil r, ∀ e₂ ∈ m.stencil r,
      e₁.flatOffset = e₂.flatOffset → e₁ = e₂ := by
    intro e₁ h₁ e₂ h₂ h
    exact flatOffset_injective_on_stencil m r hnx hny e₁ e₂ h₁ h₂ h
  refine ⟨List.Nodup.map_on hinj (stencil_nodup m r), ?_⟩
  intro e₁ h₁ e₂ h₂ hne h
  exact hne (hinj e₁ h₁ e₂ h₂ h)

/-- Witness of the amended C14: on the 5×5×5 map the radius 2 and the default argument -1, which
stands for the header's radius 2, both run with the box width 4, which is at most
`nx = ny = 5`. -/
theorem stencil_flatOffset_injective_of_box_witness :
    2 * ⌈exampleMap.effectiveRadius 2⌉ ≤ exampleMap.get_header.get_nx
      ∧ 2 * ⌈exampleMap.effectiveRadius (-1)⌉ ≤ exampleMap.get_header.get_ny
      ∧ ((exampleMap.stencil 2).map StencilEntry.flatOffset).Nodup
      ∧ ((exampleMap.stencil (-1)).map StencilEntry.flatOffset).Nodup := by
  have h2 : 2 * ⌈exampleMap.effectiveRadius 2⌉ ≤ (5 : Int) := by
    rw [effectiveRadius_of_nonneg _ _ (by norm_num), ceil_two_rat]
    decide
  have hd : 2 * ⌈exampleMap.effectiveRadius (-1)⌉ ≤ (5 : Int) := by
    rw [effectiveRadius_default_of_header_two exampleMap rfl, ceil_two_rat]
    decide
  exact ⟨h2, hd, (stencil_flatOffset_injective_of_box exampleMap 2 h2 h2).1,
    (stencil_flatOffset_injective_of_box exampleMap (-1) hd hd).1⟩

theorem length_flatMap_pack (l : List StencilEntry) :
    (l.flatMap pack).length = 5 * l.length := by
  induction l with
  | nil => rfl
  | cons e l ih =>
    rw [List.flatMap_cons, List.length_append, ih, List.length_cons]
    simp only [pack, List.length_cons, List.length_nil]
    omega

theorem getElem?_flatMap_pack (l : List StencilEntry) (k : Nat) (e : StencilEntry)
    (h : l[k]? = some e) (j : Nat) (hj : j < 5) :
    (l.flatMap pack)[5 * k + j]? = (pack e)[j]? := by
  induction l generalizing k with
  | nil => simp at h
  | cons a l ih =>
    have hlen : (pack a).length = 5 := rfl
    rw [List.flatMap_cons]
    cases k with
    | zero =>
      have ha : a = e := by simpa using h
      rw [List.getElem?_append_left (by rw [hlen]; omega), ha]
      simp
    | succ k =>
      have hk : l[k]? = some e := by simpa using h
      rw [List.getElem?_append_right (by rw [hlen]; omega), hlen]
      have e1 : 5 * (k + 1) + j - 5 = 5 * k + j := by omega
      rw [e1]
      exact ih k hk

theorem exists_boxEntry_of_kept_getElem? (R : ℚ) (nx ny : Int) (k : Nat) (z y x : Int)
    (h : (keptDisplacements R)[k]? = some (z, y, x)) :
    (boxEntries R nx ny)[k]? = some (mkEntry nx ny z y x) := by
  rw [← map_displacement_boxEntries R nx ny, List.getElem?_map] at h
  cases hk : (boxEntries R nx ny)[k]? with
  | none => rw [hk] at h; cases h
  | some e =>
    rw [hk] at h
    have hd : e.displacement = (z, y, x) := by simpa using h
    have hmem : e ∈ boxEntries R nx ny := List.getElem?_mem hk
    have he := ((mem_boxEntries R nx ny e).mp hmem).2.2.2.2
    have hz : e.dz = z := congrArg Prod.fst hd
    have hy : e.dy = y := congrArg (fun t => t.2.1) hd
    have hx : e.dx = x := congrArg (fun t => t.2.2) hd
    rw [he, hz, hy, hx]

/-- C15: the list returned by `get_neighbor_idx_offsets` has five slots for every kept
displacement (the triples of the box that pass the test of the code, `keptDisplacements`), so
its length is divisible by 5, and the slots at the positions `5k`, `5k+1`, `5k+2`, `5k+3`,
`5k+4` hold the `z`, `y`, `x` of the `k`-th kept displacement, its flat offset
`z*nx*ny + y*nx + x` and the float `sqrt` of its squared distance. -/
theorem offsets_packed_by_five (m : PathMap) (r : ℚ) :
    (m.get_neighbor_idx_offsets r).length
        = 5 * (keptDisplacements (m.effectiveRadius r)).length
      ∧ 5 ∣ (m.get_neighbor_idx_offsets r).length
      ∧ ∀ (k : Nat) (z y x : Int),
          (keptDisplacements (m.effectiveRadius r))[k]? = some (z, y, x) →
          (m.get_neighbor_idx_offsets r)[5 * k]? = some (Slot.int z)
            ∧ (m.get_neighbor_idx_offsets r)[5 * k + 1]? = some (Slot.int y)
            ∧ (m.get_neighbor_idx_offsets r)[5 * k + 2]? = some (Slot.int x)
            ∧ (m.get_neighbor_idx_offsets r)[5 * k + 3]?
                = some (Slot.int (z * m.get_header.get_nx * m.get_header.get_ny
                    + y * m.get_header.get_nx + x))
            ∧ (m.get_neighbor_idx_offsets r)[5 * k + 4]?
                = some (Slot.sqrtf (z ^ 2 + y ^ 2 + x ^ 2)) := by
  have hlen : (m.get_neighbor_idx_offsets r).length
      = 5 * (keptDisplacements (m.effectiveRadius r)).length := by
    rw [get_neighbor_idx_offsets_eq, length_flatMap_pack,
      ← map_displacement_boxEntries (m.effectiveRadius r) m.header.nx m.header.ny,
      List.length_map]
  refine ⟨hlen, ⟨_, hlen⟩, ?_⟩
  intro k z y x hk
  have hb := exists_boxEntry_of_kept_getElem? _ m.header.nx m.header.ny k z y x hk
  have hget := getElem?_flatMap_pack _ k _ hb
  rw [get_neighbor_idx_offsets_eq]
  have h0 := hget 0 (by omega)
  have h1 := hget 1 (by omega)
  have h2 := hget 2 (by omega)
  have h3 := hget 3 (by omega)
  have h4 := hget 4 (by omega)
  have eo : z * m.get_header.get_nx * m.get_header.get_ny + y * m.get_header.get_nx + x
      = z * (m.header.nx * m.header.ny) + y * m.header.nx + x := by
    simp only [PathMap.get_header, DensityHeader.get_nx, DensityHeader.get_ny]
    ring
  have er : z ^ 2 + y ^ 2 + x ^ 2 = z * z + y * y + x * x := by ring
  rw [eo, er]
  exact ⟨h0, h1, h2, h3, h4⟩

/-- Witness of C15: the radius-1 list of the 5×5×5 map has 20 slots, and its slots 5 to 9 hold
the second kept displacement `(0, -1, 0)`, the flat offset -5 and the float `sqrt(1)`. -/
theorem offsets_packed_by_five_witness :
    (keptDisplacements (exampleMap.effectiveRadius 1))[1]? = some (0, -1, 0)
      ∧ (exampleMap.get_neighbor_idx_offsets 1).length = 20
      ∧ (exampleMap.get_neighbor_idx_offsets 1)[5]? = some (Slot.int 0)
      ∧ (exampleMap.get_neighbor_idx_offsets 1)[6]? = some (Slot.int (-1))
      ∧ (exampleMap.get_neighbor_idx_offsets 1)[7]? = some (Slot.int 0)
      ∧ (exampleMap.get_neighbor_idx_offsets 1)[8]? = some (Slot.int (-5))
      ∧ (exampleMap.get_neighbor_idx_offsets 1)[9]? = some (Slot.sqrtf 1) := by
  have hs : (keptDisplacements (exampleMap.effectiveRadius 1))[1]? = some (0, -1, 0) := by
    rw [effectiveRadius_of_nonneg _ _ (by norm_num), keptDisplacements_one]
    rfl
  have hl : (keptDisplacements (exampleMap.effectiveRadius 1)).length = 4 := by
    rw [effectiveRadius_of_nonneg _ _ (by norm_num), keptDisplacements_one]
    rfl
  have h := offsets_packed_by_five exampleMap 1
  obtain ⟨h0, h1, h2, h3, h4⟩ := h.2.2 1 0 (-1) 0 hs
  refine ⟨hs, by rw [h.1, hl], h0, h1, h2, ?_, ?_⟩
  · rw [h3]
    decide
  · rw [h4]
    decide

/-- C16: after `set_origin(x, y, z)`, `get_origin()` returns `(x, y, z)`, and
`get_path_origin()`, `get_neighbor_radius()`, `get_obstacle_threshold()` and
`get_max_path_length()` return what they returned before the call. -/
theorem set_origin_changes_only_origin (h : PathMapHeader) (x y z : ℚ) :
    (h.set_origin x y z).get_origin = { x := x, y := y, z := z }
      ∧ (h.set_origin x y z).get_path_origin = h.get_path_origin
      ∧ (h.set_origin x y z).get_neighbor_radius = h.get_neighbor_radius
      ∧ (h.set_origin x y z).get_obstacle_threshold = h.get_obstacle_threshold
      ∧ (h.set_origin x y z).get_max_path_length = h.get_max_path_length :=
  ⟨rfl, rfl, rfl, rfl, rfl⟩

end IMP.bff
